import Mathlib

/-!
# Verification of the VectoDB search and storage core

A shallow embedding, in Lean 4, of the components of the `vector_database`
Go repository that the specification's claims are about:

* the vector record codec (`pkg/core/vector/vector.go`),
* the flat exhaustive index (`pkg/index/flat/flat.go`) together with the
  result-sorting routine of `pkg/index/index.go`,
* the HNSW graph index (`pkg/index/hnsw/hnsw.go`),
* the SQL tokenizer and parser (`pkg/sql/parser`),
* the query executor (`pkg/sql/executor/executor.go`) and
  the in-memory vector store (`pkg/storage`).

Go machine integers are modelled as `Nat` with explicit reductions
modulo `2 ^ 32` where the Go code performs `uint32` arithmetic.
Go byte strings are modelled as `List Nat` (one entry per byte).
`float32` *components* of vector records are modelled by their IEEE-754
bit patterns (a `Nat < 2 ^ 32`): the codec copies bit patterns and never
computes with them.  Distance *values* are modelled as exact rationals
(`ℚ`): the index algorithms only ever compare distances, and the
comparisons of finite floats are faithfully reflected by any linear
order, so every theorem below about index behaviour holds for each
choice of metric producing finite values.  Fallible Go functions
(returning `(T, error)`) are modelled with `Except` or `Option`.
-/

namespace VDB

/-! ## Byte-level helpers shared by the codec -/

/-- Reduction modulo 2^32: Go `uint32` conversion / arithmetic. -/
def u32 (n : Nat) : Nat := n % 4294967296

/-- `binary.LittleEndian.PutUint32`: the four little-endian bytes of
`uint32(n)`. -/
def putU32LE (n : Nat) : List Nat :=
  [u32 n % 256, u32 n / 256 % 256, u32 n / 65536 % 256, u32 n / 16777216 % 256]

/-- `binary.LittleEndian.Uint32` on (up to) four bytes.  Reading past the
end of the buffer yields zero bytes here; the Go code would panic, and
every theorem below stays inside the guarded, in-bounds regime. -/
def readU32LE (l : List Nat) : Nat :=
  l.getD 0 0 + 256 * l.getD 1 0 + 65536 * l.getD 2 0 + 16777216 * l.getD 3 0

namespace codec

/-! ## Vector record codec — `pkg/core/vector/vector.go`

A `Vector` holds an ID (Go string, i.e. raw bytes), float32 components
(bit patterns), a dimension field and string→string metadata.  Go's
`map[string]string` is modelled as an association list: the list order
stands for the (unspecified) iteration order of the map, and assignment
into the map is `upsert` below. -/

/-- `vector.Vector`. -/
structure Vec where
  id : List Nat
  values : List Nat
  dimension : Nat
  metadata : List (List Nat × List Nat)
  deriving Repr, DecidableEq

/-- Go map assignment `m[k] = v` on an association list: replace the
binding of `k` if present, else append. -/
def upsert (l : List (List Nat × List Nat)) (k v : List Nat) :
    List (List Nat × List Nat) :=
  match l with
  | [] => [(k, v)]
  | (k1, v1) :: t => if k1 = k then (k, v) :: t else (k1, v1) :: upsert t k v

/-- `strings.ReplaceAll(s, string(c), "\\" + string(c))`: insert a
backslash (byte 92) before every occurrence of byte `c`. -/
def escapeByte (c : Nat) (s : List Nat) : List Nat :=
  s.flatMap fun b => if b = c then [92, c] else [b]

/-- The escaping applied by `encodeMetadata` to keys and values:
first `=` (61), then `;` (59).  Backslashes themselves are NOT escaped
by the Go code. -/
def escapeMeta (s : List Nat) : List Nat :=
  escapeByte 59 (escapeByte 61 s)

/-- `encodeMetadata`: `key1=value1;key2=value2;...` with escaping. -/
def encodeMetadata (m : List (List Nat × List Nat)) : List Nat :=
  if m.isEmpty then []
  else
    m.foldl
      (fun result kv =>
        (if result.isEmpty then result else result ++ [59]) ++
          escapeMeta kv.1 ++ [61] ++ escapeMeta kv.2)
      []

/-- The loop of `splitRespectingEscapes`: `cur` is the current chunk,
`esc` the pending-escape flag.  On exhaustion the chunk is kept only if
non-empty (the Go code also keeps it for empty input; see
`splitRespectingEscapes`). -/
def splitGo (delim : Nat) : List Nat → List Nat → Bool → List (List Nat)
  | [], cur, _ => if cur.isEmpty then [] else [cur]
  | c :: t, cur, esc =>
    if esc then splitGo delim t (cur ++ [c]) false
    else if c = 92 then splitGo delim t cur true
    else if c = delim then cur :: splitGo delim t [] false
    else splitGo delim t (cur ++ [c]) false

/-- `splitRespectingEscapes(s, delimiter)`. -/
def splitRespectingEscapes (s : List Nat) (delim : Nat) : List (List Nat) :=
  if s.isEmpty then [[]] else splitGo delim s [] false

/-- `strings.ReplaceAll(s, [92, c], [c])`: left-to-right, non-overlapping. -/
def unescapeByte (c : Nat) : List Nat → List Nat
  | [] => []
  | [x] => [x]
  | x :: y :: t =>
    if x = 92 ∧ y = c then c :: unescapeByte c t
    else x :: unescapeByte c (y :: t)

/-- The unescaping applied by `decodeMetadata`: `\\=` then `\\;`. -/
def unescapeMeta (s : List Nat) : List Nat :=
  unescapeByte 59 (unescapeByte 61 s)

/-- `decodeMetadata`. -/
def decodeMetadata (s : List Nat) : List (List Nat × List Nat) :=
  if s.isEmpty then []
  else
    (splitRespectingEscapes s 59).foldl
      (fun result pair =>
        match splitRespectingEscapes pair 61 with
        | [k, v] => upsert result (unescapeMeta k) (unescapeMeta v)
        | _ => result)
      []

/-- `Vector.Encode`.  The Go code sizes the buffer from `v.Dimension` and
writes the components of `v.Values`; the two agree exactly when
`dimension = values.length` (the repository-wide invariant), which the
round-trip theorems assume. -/
def encode (v : Vec) : List Nat :=
  let metadataBytes := encodeMetadata v.metadata
  putU32LE v.id.length ++ v.id ++ putU32LE v.dimension ++
    (v.values.map putU32LE).flatten ++
    putU32LE metadataBytes.length ++ metadataBytes

/-- `Decode`.  All length guards reproduce the Go comparisons, including
the `uint32` wrap-around in `int(4+idLen+4)` and
`int(4+idLen+4+dim*4)`; out-of-bounds reads (which would panic in Go,
and are unreachable under the guards in the non-wrapping regime) read
zeros. -/
def decode (buf : List Nat) : Except String Vec :=
  if buf.length < 8 then .error "buffer too small to decode vector"
  else
    let idLen := readU32LE (buf.take 4)
    if buf.length < u32 (4 + idLen + 4) then
      .error "buffer too small to decode vector"
    else
      let id := (buf.drop 4).take idLen
      let dim := readU32LE ((buf.drop (4 + idLen)).take 4)
      if buf.length < u32 (4 + idLen + 4 + dim * 4) then
        .error "buffer too small to decode vector values"
      else
        let values :=
          (List.range dim).map fun i =>
            readU32LE ((buf.drop (u32 (4 + idLen + 4 + 4 * i))).take 4)
        let mlo := u32 (4 + idLen + 4 + dim * 4)
        let metadata :=
          if buf.length > u32 (mlo + 4) then
            let metadataLen := readU32LE ((buf.drop mlo).take 4)
            if buf.length ≥ u32 (mlo + 4 + metadataLen) then
              decodeMetadata ((buf.drop (mlo + 4)).take metadataLen)
            else []
          else []
        .ok { id := id, values := values, dimension := dim,
              metadata := metadata }

/-- IEEE-754 single precision: a bit pattern is finite iff its exponent
field is not all ones (`math.IsNaN` / `math.IsInf` are both false). -/
def isFinite32 (bits : Nat) : Bool :=
  (u32 bits / 8388608) % 256 ≠ 255

/-- The bytes contributed to `encodeMetadata` by one key/value pair. -/
def pairBytes (kv : List Nat × List Nat) : List Nat :=
  escapeMeta kv.1 ++ [61] ++ escapeMeta kv.2

theorem escapeByte_cons (c b : Nat) (t : List Nat) :
    escapeByte c (b :: t) =
      (if b = c then [92, c] else [b]) ++ escapeByte c t := by
  simp [escapeByte]

theorem escapeByte_of_not_mem {c : Nat} {s : List Nat} (h : c ∉ s) :
    escapeByte c s = s := by
  induction s with
  | nil => rfl
  | cons b t ih =>
    simp only [List.mem_cons, not_or] at h
    rw [escapeByte_cons, if_neg (fun hb => h.1 hb.symm), ih h.2]
    rfl

theorem escapeMeta_of_safe {s : List Nat} (h61 : 61 ∉ s) :
    escapeMeta s = escapeByte 59 s := by
  unfold escapeMeta
  rw [escapeByte_of_not_mem h61]

theorem splitGo_cons_esc (d c : Nat) (t cur : List Nat) :
    splitGo d (c :: t) cur true = splitGo d t (cur ++ [c]) false := by
  simp [splitGo]

theorem splitGo_cons_92 (d : Nat) (t cur : List Nat) :
    splitGo d (92 :: t) cur false = splitGo d t cur true := by
  simp [splitGo]

theorem splitGo_cons_delim {d : Nat} (hd : d ≠ 92) (t cur : List Nat) :
    splitGo d (d :: t) cur false = cur :: splitGo d t [] false := by
  simp [splitGo, hd]

theorem splitGo_cons_other {d c : Nat} (h92 : c ≠ 92) (hdc : c ≠ d)
    (t cur : List Nat) :
    splitGo d (c :: t) cur false = splitGo d t (cur ++ [c]) false := by
  simp [splitGo, h92, hdc]

theorem splitGo_escape_head {d : Nat} (x : List Nat) (r cur : List Nat)
    (hx : 92 ∉ x) :
    splitGo d (escapeByte d x ++ r) cur false = splitGo d r (cur ++ x) false := by
  induction x generalizing cur with
  | nil => simp [escapeByte]
  | cons b t ih =>
    simp only [List.mem_cons, not_or] at hx
    have hb92 : b ≠ 92 := fun hb => hx.1 hb.symm
    rw [escapeByte_cons]
    by_cases hb : b = d
    · rw [if_pos hb, List.append_assoc]
      show splitGo d (92 :: d :: (escapeByte d t ++ r)) cur false = _
      rw [splitGo_cons_92, splitGo_cons_esc, ih _ hx.2, hb]
      simp
    · rw [if_neg hb, List.append_assoc]
      show splitGo d (b :: (escapeByte d t ++ r)) cur false = _
      rw [splitGo_cons_other hb92 hb, ih _ hx.2]
      simp

theorem splitGo_plain_head {d : Nat} (x : List Nat) (r cur : List Nat)
    (hx92 : 92 ∉ x) (hxd : d ∉ x) :
    splitGo d (x ++ r) cur false = splitGo d r (cur ++ x) false := by
  have h := splitGo_escape_head (d := d) x r cur hx92
  rwa [escapeByte_of_not_mem hxd] at h

theorem splitGo_nil_of_ne {d : Nat} {cur : List Nat} (h : cur ≠ []) :
    splitGo d [] cur false = [cur] := by
  simp [splitGo, List.isEmpty_eq_false.mpr h]

theorem splitGo_single {d : Nat} (v : List Nat)
    (hv92 : 92 ∉ v) (hvd : d ∉ v) (hne : v ≠ []) :
    splitGo d v [] false = [v] := by
  have h := splitGo_plain_head (d := d) v [] [] hv92 hvd
  simp only [List.append_nil, List.nil_append] at h
  rw [h, splitGo_nil_of_ne hne]

theorem split_pair {k v : List Nat}
    (hk61 : 61 ∉ k) (hk92 : 92 ∉ k) (hv61 : 61 ∉ v) (hv92 : 92 ∉ v)
    (hne : v ≠ []) :
    splitRespectingEscapes (k ++ 61 :: v) 61 = [k, v] := by
  unfold splitRespectingEscapes
  rw [if_neg (by simp)]
  rw [splitGo_plain_head k (61 :: v) [] hk92 hk61]
  simp only [List.nil_append]
  rw [splitGo_cons_delim (by omega), splitGo_single v hv92 hv61 hne]

theorem encodeMetadata_foldl (m : List (List Nat × List Nat))
    (acc : List Nat) (hacc : acc ≠ []) :
    m.foldl
      (fun result kv =>
        (if result.isEmpty then result else result ++ [59]) ++
          escapeMeta kv.1 ++ [61] ++ escapeMeta kv.2)
      acc =
    acc ++ (m.map fun kv => 59 :: pairBytes kv).flatten := by
  induction m generalizing acc with
  | nil => simp
  | cons p t ih =>
    simp only [List.foldl_cons, List.map_cons, List.flatten_cons]
    rw [if_neg (by simpa [List.isEmpty_eq_false] using hacc)]
    rw [ih _ (by simp)]
    simp [pairBytes, List.append_assoc]

theorem encodeMetadata_cons (p : List Nat × List Nat)
    (t : List (List Nat × List Nat)) :
    encodeMetadata (p :: t) =
      pairBytes p ++ (t.map fun kv => 59 :: pairBytes kv).flatten := by
  unfold encodeMetadata
  rw [if_neg (by simp)]
  simp only [List.foldl_cons, List.isEmpty_nil, if_pos rfl]
  rw [encodeMetadata_foldl t _ (by simp [pairBytes])]
  simp [pairBytes]

theorem pairBytes_ne_nil (kv : List Nat × List Nat) : pairBytes kv ≠ [] := by
  simp [pairBytes]

theorem encodeMetadata_ne_nil {m : List (List Nat × List Nat)} (hm : m ≠ []) :
    encodeMetadata m ≠ [] := by
  match m with
  | p :: t =>
    rw [encodeMetadata_cons]
    simp [pairBytes]

theorem splitGo_enc_pairs (t : List (List Nat × List Nat))
    (p : List Nat × List Nat)
    (hgood : ∀ kv ∈ p :: t, (61 ∉ kv.1 ∧ 92 ∉ kv.1) ∧ 61 ∉ kv.2 ∧ 92 ∉ kv.2) :
    splitGo 59 (pairBytes p ++ (t.map fun kv => 59 :: pairBytes kv).flatten)
        [] false =
      (p :: t).map fun kv => kv.1 ++ 61 :: kv.2 := by
  induction t generalizing p with
  | nil =>
    obtain ⟨⟨hk61, hk92⟩, hv61, hv92⟩ := hgood p (by simp)
    simp only [List.map_nil, List.flatten_nil, List.append_nil, pairBytes,
      escapeMeta_of_safe hk61, escapeMeta_of_safe hv61, List.append_assoc,
      List.cons_append, List.nil_append]
    rw [splitGo_escape_head p.1 _ [] hk92]
    simp only [List.nil_append]
    rw [splitGo_cons_other (by omega) (by omega)]
    rw [← List.append_nil (escapeByte 59 p.2),
      splitGo_escape_head p.2 [] _ hv92]
    rw [splitGo_nil_of_ne (by simp)]
    simp [List.map_cons, List.append_assoc]
  | cons q t2 ih =>
    obtain ⟨⟨hk61, hk92⟩, hv61, hv92⟩ := hgood p (by simp)
    have hrw : pairBytes p ++
        ((q :: t2).map fun kv => 59 :: pairBytes kv).flatten =
        escapeByte 59 p.1 ++ ([61] ++ (escapeByte 59 p.2 ++
          (59 :: (pairBytes q ++
            (t2.map fun kv => 59 :: pairBytes kv).flatten)))) := by
      simp [pairBytes, escapeMeta_of_safe hk61, escapeMeta_of_safe hv61,
        List.append_assoc]
    rw [hrw, splitGo_escape_head p.1 _ [] hk92]
    simp only [List.nil_append, List.cons_append, List.nil_append]
    rw [splitGo_cons_other (by omega) (by omega)]
    rw [splitGo_escape_head p.2 _ _ hv92]
    rw [splitGo_cons_delim (by omega)]
    rw [ih q (fun kv hkv => hgood kv (by simp at hkv ⊢; tauto))]
    simp [List.map_cons, List.append_assoc]

theorem split59_encodeMetadata (m : List (List Nat × List Nat)) (hm : m ≠ [])
    (hgood : ∀ kv ∈ m, (61 ∉ kv.1 ∧ 92 ∉ kv.1) ∧ 61 ∉ kv.2 ∧ 92 ∉ kv.2) :
    splitRespectingEscapes (encodeMetadata m) 59 =
      m.map fun kv => kv.1 ++ 61 :: kv.2 := by
  match m with
  | p :: t =>
    unfold splitRespectingEscapes
    rw [if_neg (by simpa [List.isEmpty_eq_false] using
      encodeMetadata_ne_nil (m := p :: t) (by simp))]
    rw [encodeMetadata_cons]
    exact splitGo_enc_pairs t p hgood

theorem unescapeByte_of_not_mem {c : Nat} {s : List Nat} (h : 92 ∉ s) :
    unescapeByte c s = s := by
  induction s with
  | nil => rfl
  | cons x t ih =>
    simp only [List.mem_cons, not_or] at h
    match t with
    | [] => rfl
    | y :: t2 =>
      rw [show unescapeByte c (x :: y :: t2) =
          if x = 92 ∧ y = c then c :: unescapeByte c t2
          else x :: unescapeByte c (y :: t2) from rfl]
      rw [if_neg (fun hc => h.1 hc.1.symm), ih h.2]

theorem unescapeMeta_of_safe {s : List Nat} (h : 92 ∉ s) :
    unescapeMeta s = s := by
  unfold unescapeMeta
  rw [unescapeByte_of_not_mem h, unescapeByte_of_not_mem h]

theorem upsert_of_fresh (l : List (List Nat × List Nat)) (k v : List Nat)
    (h : k ∉ l.map Prod.fst) :
    upsert l k v = l ++ [(k, v)] := by
  induction l with
  | nil => rfl
  | cons p t ih =>
    simp only [List.map_cons, List.mem_cons, not_or] at h
    simp only [upsert]
    rw [if_neg (fun hc => h.1 hc.symm), ih h.2]
    simp

theorem decode_fold_pairs (m : List (List Nat × List Nat))
    (acc : List (List Nat × List Nat))
    (hgood : ∀ kv ∈ m,
      (61 ∉ kv.1 ∧ 92 ∉ kv.1) ∧ (61 ∉ kv.2 ∧ 92 ∉ kv.2) ∧ kv.2 ≠ [])
    (hkeys : (m.map Prod.fst).Nodup)
    (hfresh : ∀ kv ∈ m, kv.1 ∉ acc.map Prod.fst) :
    (m.map fun kv => kv.1 ++ 61 :: kv.2).foldl
      (fun result pair =>
        match splitRespectingEscapes pair 61 with
        | [k, v] => upsert result (unescapeMeta k) (unescapeMeta v)
        | _ => result)
      acc = acc ++ m := by
  induction m generalizing acc with
  | nil => simp
  | cons p t ih =>
    obtain ⟨⟨hk61, hk92⟩, ⟨hv61, hv92⟩, hne⟩ := hgood p (by simp)
    simp only [List.map_cons, List.foldl_cons]
    rw [split_pair hk61 hk92 hv61 hv92 hne]
    simp only [unescapeMeta_of_safe hk92, unescapeMeta_of_safe hv92]
    rw [upsert_of_fresh acc p.1 p.2 (hfresh p (by simp))]
    simp only [List.map_cons, List.nodup_cons] at hkeys
    rw [ih (acc ++ [(p.1, p.2)])
      (fun kv hkv => hgood kv (by simp [hkv]))
      hkeys.2
      (fun kv hkv => by
        simp only [List.map_append, List.mem_append, List.map_cons,
          List.map_nil, List.mem_singleton, not_or]
        refine ⟨hfresh kv (by simp [hkv]), fun hc => ?_⟩
        exact hkeys.1 (hc ▸ List.mem_map_of_mem Prod.fst hkv))]
    simp

theorem decodeMetadata_encodeMetadata (m : List (List Nat × List Nat))
    (hgood : ∀ kv ∈ m,
      (61 ∉ kv.1 ∧ 92 ∉ kv.1) ∧ (61 ∉ kv.2 ∧ 92 ∉ kv.2) ∧ kv.2 ≠ [])
    (hkeys : (m.map Prod.fst).Nodup) :
    decodeMetadata (encodeMetadata m) = m := by
  match m with
  | [] => rfl
  | p :: t =>
    unfold decodeMetadata
    rw [if_neg (by simpa [List.isEmpty_eq_false] using
      encodeMetadata_ne_nil (m := p :: t) (by simp))]
    rw [split59_encodeMetadata (p :: t) (by simp)
      (fun kv hkv => ⟨(hgood kv hkv).1, (hgood kv hkv).2.1⟩)]
    simpa using decode_fold_pairs (p :: t) [] hgood hkeys (by simp)

theorem putU32LE_length (n : Nat) : (putU32LE n).length = 4 := rfl

theorem u32_eq_of_lt {n : Nat} (h : n < 4294967296) : u32 n = n :=
  Nat.mod_eq_of_lt h

theorem readU32LE_putU32LE (n : Nat) : readU32LE (putU32LE n) = u32 n := by
  have h : u32 n < 4294967296 := Nat.mod_lt _ (by omega)
  simp only [readU32LE, putU32LE, List.getD_cons_zero, List.getD_cons_succ]
  omega

theorem flattenPut_length (vs : List Nat) :
    ((vs.map putU32LE).flatten).length = 4 * vs.length := by
  induction vs with
  | nil => rfl
  | cons x t ih => simp [ih, putU32LE_length]; ring

theorem flattenPut_drop (vs : List Nat) (i : Nat) (h : i < vs.length) :
    ((vs.map putU32LE).flatten).drop (4 * i) =
      putU32LE (vs.getD i 0) ++ ((vs.drop (i + 1)).map putU32LE).flatten := by
  induction vs generalizing i with
  | nil => simp at h
  | cons x t ih =>
    match i with
    | 0 => simp
    | i + 1 =>
      simp only [List.map_cons, List.flatten_cons, List.getD_cons_succ,
        List.drop_succ_cons]
      rw [show 4 * (i + 1) = (putU32LE x).length + 4 * i by
        rw [putU32LE_length]; ring]
      rw [List.drop_append]
      exact ih i (by simpa using h)

/-- Declared id-region length of a buffer, as read by `Decode`. -/
def declaredIdLen (buf : List Nat) : Nat := readU32LE (buf.take 4)

/-- Declared dimension of a buffer, as read by `Decode`. -/
def declaredDim (buf : List Nat) : Nat :=
  readU32LE ((buf.drop (4 + declaredIdLen buf)).take 4)

/-- `Decode` returns an error whenever the buffer is shorter than the
declared header/id/values regions — provided the declared sizes do not
overflow the 32-bit arithmetic of the guards. -/
theorem decode_short (buf : List Nat)
    (h : buf.length < 8 ∨
      (8 + declaredIdLen buf + 4 * declaredDim buf < 4294967296 ∧
        buf.length < 8 + declaredIdLen buf + 4 * declaredDim buf)) :
    ∃ msg, decode buf = .error msg := by
  unfold decode
  by_cases h8 : buf.length < 8
  · rw [if_pos h8]
    exact ⟨_, rfl⟩
  · rw [if_neg h8]
    rcases h with h | ⟨hfit, hshort⟩
    · omega
    · by_cases hid : buf.length < u32 (4 + declaredIdLen buf + 4)
      · rw [show readU32LE (buf.take 4) = declaredIdLen buf from rfl,
          if_pos hid]
        exact ⟨_, rfl⟩
      · rw [show readU32LE (buf.take 4) = declaredIdLen buf from rfl,
          if_neg hid]
        rw [show readU32LE ((buf.drop (4 + declaredIdLen buf)).take 4) =
          declaredDim buf from rfl]
        rw [if_pos ?_]
        · exact ⟨_, rfl⟩
        · have : u32 (4 + declaredIdLen buf + 4 + declaredDim buf * 4) =
              8 + declaredIdLen buf + 4 * declaredDim buf := by
            unfold u32
            omega
          omega

/-- Round trip `Decode(Encode(v)) = v`.  Hypotheses:
* `dimension` equals the number of components (the repository invariant);
* component bit patterns fit in 32 bits;
* the encoded sizes fit in the 32-bit length prefixes and guards;
* metadata keys and values are free of `=` (61) and `\` (92) — the Go
  encoder does not escape backslashes, so they do not survive the trip —
  and values are non-empty; `;` (59) may occur anywhere;
* metadata keys are distinct (they come from a Go map). -/
theorem decode_encode (v : Vec)
    (hdim : v.dimension = v.values.length)
    (hvals : ∀ x ∈ v.values, x < 4294967296)
    (hsz : 12 + v.id.length + 4 * v.values.length +
      (encodeMetadata v.metadata).length < 4294967296)
    (hmeta : ∀ kv ∈ v.metadata,
      (61 ∉ kv.1 ∧ 92 ∉ kv.1) ∧ (61 ∉ kv.2 ∧ 92 ∉ kv.2) ∧ kv.2 ≠ [])
    (hkeys : (v.metadata.map Prod.fst).Nodup) :
    decode (encode v) = .ok v := by
  obtain ⟨idb, vals, dim, meta⟩ := v
  simp only at hdim hvals hsz hmeta hkeys
  subst hdim
  rw [show encode ⟨idb, vals, vals.length, meta⟩ =
      putU32LE idb.length ++ (idb ++ (putU32LE vals.length ++
        ((vals.map putU32LE).flatten ++
          (putU32LE (encodeMetadata meta).length ++ encodeMetadata meta))))
    by simp [encode, List.append_assoc]]
  set B := putU32LE idb.length ++ (idb ++ (putU32LE vals.length ++
    ((vals.map putU32LE).flatten ++
      (putU32LE (encodeMetadata meta).length ++ encodeMetadata meta))))
    with hBdef
  have hBlen : B.length =
      12 + idb.length + 4 * vals.length + (encodeMetadata meta).length := by
    rw [hBdef]
    simp only [List.length_append, putU32LE_length, flattenPut_length]
    omega
  have h1 : B.take 4 = putU32LE idb.length := by
    rw [hBdef, show (4 : Nat) = (putU32LE idb.length).length from rfl,
      List.take_left]
  have hidlen : readU32LE (B.take 4) = idb.length := by
    rw [h1, readU32LE_putU32LE, u32_eq_of_lt (by omega)]
  have h2 : B.drop 4 = idb ++ (putU32LE vals.length ++
      ((vals.map putU32LE).flatten ++
        (putU32LE (encodeMetadata meta).length ++ encodeMetadata meta))) := by
    rw [hBdef, show (4 : Nat) = (putU32LE idb.length).length from rfl,
      List.drop_left]
  have hid : (B.drop 4).take idb.length = idb := by
    rw [h2, List.take_left]
  have h3 : B.drop (4 + idb.length) = putU32LE vals.length ++
      ((vals.map putU32LE).flatten ++
        (putU32LE (encodeMetadata meta).length ++ encodeMetadata meta)) := by
    rw [← List.drop_drop, h2, List.drop_left]
  have hdimread : readU32LE ((B.drop (4 + idb.length)).take 4) =
      vals.length := by
    rw [h3, show (4 : Nat) = (putU32LE vals.length).length from rfl,
      List.take_left, readU32LE_putU32LE, u32_eq_of_lt (by omega)]
  have h4 : B.drop (8 + idb.length) = (vals.map putU32LE).flatten ++
      (putU32LE (encodeMetadata meta).length ++ encodeMetadata meta) := by
    rw [show 8 + idb.length = (4 + idb.length) + 4 by ring,
      ← List.drop_drop, h3,
      show (4 : Nat) = (putU32LE vals.length).length from rfl,
      List.drop_left]
  have h5 : B.drop (8 + idb.length + 4 * vals.length) =
      putU32LE (encodeMetadata meta).length ++ encodeMetadata meta := by
    rw [show 8 + idb.length + 4 * vals.length =
        (8 + idb.length) + ((vals.map putU32LE).flatten).length by
      rw [flattenPut_length]]
    rw [← List.drop_drop, h4, List.drop_left]
  have hvali : ∀ i, i < vals.length →
      (B.drop (u32 (4 + idb.length + 4 + 4 * i))).take 4 =
        putU32LE (vals.getD i 0) := by
    intro i hi
    have hu : u32 (4 + idb.length + 4 + 4 * i) = (8 + idb.length) + 4 * i := by
      unfold u32
      omega
    rw [hu, ← List.drop_drop, h4,
      List.drop_append_of_le_length (by rw [flattenPut_length]; omega),
      flattenPut_drop vals i hi, List.append_assoc,
      show (4 : Nat) = (putU32LE (vals.getD i 0)).length from rfl,
      List.take_left]
  have hvalues : (List.range vals.length).map
      (fun i => readU32LE ((B.drop (u32 (4 + idb.length + 4 + 4 * i))).take 4))
      = vals := by
    apply List.ext_getElem (by simp)
    intro n h₁ h₂
    simp only [List.getElem_map, List.getElem_range]
    rw [hvali n h₂, readU32LE_putU32LE, List.getD_eq_getElem vals 0 h₂,
      u32_eq_of_lt (hvals _ (vals.getElem_mem h₂))]
  have hu3 : u32 (4 + idb.length + 4 + vals.length * 4) =
      8 + idb.length + 4 * vals.length := by
    unfold u32
    omega
  unfold decode
  rw [if_neg (by omega)]
  simp only [hidlen, hdimread]
  rw [show u32 (4 + idb.length + 4) = 8 + idb.length by unfold u32; omega]
  rw [if_neg (by omega), hu3]
  rw [if_neg (by omega)]
  simp only [hvalues, hid]
  rw [show u32 (8 + idb.length + 4 * vals.length + 4) =
      12 + idb.length + 4 * vals.length by unfold u32; omega]
  by_cases hm : meta = []
  · subst hm
    have hme : encodeMetadata ([] : List (List Nat × List Nat)) = [] := rfl
    rw [if_neg (by rw [hBlen, hme]; simp only [List.length_nil]; omega)]
  · have hmb : encodeMetadata meta ≠ [] := encodeMetadata_ne_nil hm
    have hmblen : 0 < (encodeMetadata meta).length := List.length_pos.mpr hmb
    rw [if_pos (by omega)]
    have h6 : readU32LE ((B.drop (8 + idb.length + 4 * vals.length)).take 4) =
        (encodeMetadata meta).length := by
      rw [h5, show (4 : Nat) = (putU32LE (encodeMetadata meta).length).length
          from rfl,
        List.take_left, readU32LE_putU32LE, u32_eq_of_lt (by omega)]
    rw [h6]
    rw [show u32 (8 + idb.length + 4 * vals.length + 4 +
        (encodeMetadata meta).length) =
        12 + idb.length + 4 * vals.length + (encodeMetadata meta).length by
      unfold u32; omega]
    rw [if_pos (by omega)]
    have h7 : B.drop (8 + idb.length + 4 * vals.length + 4) =
        encodeMetadata meta := by
      rw [show 8 + idb.length + 4 * vals.length + 4 =
          (8 + idb.length + 4 * vals.length) +
            (putU32LE (encodeMetadata meta).length).length from rfl,
        ← List.drop_drop, h5, List.drop_left]
    rw [h7, List.take_length, decodeMetadata_encodeMetadata meta hmeta hkeys]

/-- C2, counterexample.  The claim asserts `Decode(Encode(v)) = v` for
every record, *including* metadata values containing `=`.  It fails on
the record with id `"x"`, one (finite) zero component and metadata
`{"a": "="}`: the encoder escapes the `=` as `\=`, but the decoder's
semicolon split already consumes the backslash, so the pair decodes to
`{"a": ""}`. -/
theorem C2_counterexample :
    decode (encode ⟨[120], [0], 1, [([97], [61])]⟩) ≠
      .ok ⟨[120], [0], 1, [([97], [61])]⟩ ∧
    decode (encode ⟨[120], [0], 1, [([97], [61])]⟩) =
      .ok ⟨[120], [0], 1, [([97], [])]⟩ := by
  have h : decode (encode ⟨[120], [0], 1, [([97], [61])]⟩) =
      .ok ⟨[120], [0], 1, [([97], [])]⟩ := by rfl
  refine ⟨?_, h⟩
  rw [h]
  intro hc
  exact absurd (Except.ok.inj hc) (by decide)

/-- C2, amended.  `Decode(Encode(v))` recovers `v` exactly — id,
dimension, values (bit patterns) and metadata — for every record whose
`dimension` matches its number of components, whose sizes fit the 32-bit
length prefixes, and whose metadata keys and values contain no `=` (61)
and no `\` (92) bytes, with non-empty values and distinct keys;
`;` may occur anywhere and round-trips through the escaping. -/
theorem C2_roundtrip_amended (v : Vec)
    (hdim : v.dimension = v.values.length)
    (hvals : ∀ x ∈ v.values, x < 4294967296)
    (hsz : 12 + v.id.length + 4 * v.values.length +
      (encodeMetadata v.metadata).length < 4294967296)
    (hmeta : ∀ kv ∈ v.metadata,
      (61 ∉ kv.1 ∧ 92 ∉ kv.1) ∧ (61 ∉ kv.2 ∧ 92 ∉ kv.2) ∧ kv.2 ≠ [])
    (hkeys : (v.metadata.map Prod.fst).Nodup) :
    decode (encode v) = .ok v :=
  decode_encode v hdim hvals hsz hmeta hkeys

/-- C2, witness: the amended round trip at a concrete record with a
semicolon in a metadata key and value. -/
theorem C2_roundtrip_witness :
    decode (encode ⟨[102, 111, 111], [1065353216, 3196059648], 2,
        [([97, 59], [98, 59, 99]), ([100], [101])]⟩) =
      .ok ⟨[102, 111, 111], [1065353216, 3196059648], 2,
        [([97, 59], [98, 59, 99]), ([100], [101])]⟩ :=
  C2_roundtrip_amended _ (by decide) (by decide) (by decide) (by decide)
    (by decide)

/-- C3, counterexample.  The claim asserts that `Decode` fails whenever
the decoded values contain non-finite bit patterns.  The code never
checks finiteness: the encoding of a record whose single component is
the quiet-NaN pattern `0x7FC00000` decodes successfully. -/
theorem C3_counterexample :
    decode (encode ⟨[], [2143289344], 1, []⟩) =
      .ok ⟨[], [2143289344], 1, []⟩ ∧
    isFinite32 2143289344 = false := by
  exact ⟨by rfl, by decide⟩

/-- C3, amended.  `Decode` returns an error (and no record) whenever the
buffer is smaller than the declared header/id/values regions, provided
the declared sizes do not overflow the guards' 32-bit arithmetic;
non-finite f32 bit patterns are NOT rejected. -/
theorem C3_short_buffer_amended (buf : List Nat)
    (h : buf.length < 8 ∨
      (8 + declaredIdLen buf + 4 * declaredDim buf < 4294967296 ∧
        buf.length < 8 + declaredIdLen buf + 4 * declaredDim buf)) :
    ∃ msg, decode buf = .error msg :=
  decode_short buf h

/-- C3, witness: a buffer declaring a 5-byte id region but providing
only 4 bytes after the header. -/
theorem C3_short_buffer_witness :
    ∃ msg, decode [5, 0, 0, 0, 97, 98, 99, 100] = .error msg :=
  C3_short_buffer_amended [5, 0, 0, 0, 97, 98, 99, 100]
    (Or.inr (by decide))

end codec

/-! ## Index layer — `pkg/index`

Vector payloads are abstracted to a type `V`; a metric is a Go
`distance.Metric` value, i.e. a fallible binary distance function.  The
error payload of a metric is irrelevant to control flow and is `Unit`.
Distances are exact rationals (see the header note). -/

/-- Error taxonomy of the index layer (`flat.go` / `hnsw.go` share it). -/
inductive IndexErr where
  | vectorNotFound
  | vectorAlreadyExists
  | invalidK
  | noVectors
  | metricRequired
  | distanceFailed
  deriving Repr, DecidableEq

/-- `index.SearchResult`: id, a copy of the vector, distance. -/
structure SearchResult (V : Type) where
  id : String
  vec : V
  distance : ℚ
  deriving DecidableEq

namespace sortResults

/-! `index.go` `SearchResults.Sort`: the bubble sort
`for i in 0..n-2: for j in 0..n-i-2: swap r[j], r[j+1] if >`. -/

/-- One inner pass over the first `n` adjacent pairs, swapping on
strictly greater distance. -/
def swapPass {V : Type} : List (SearchResult V) → Nat → List (SearchResult V)
  | l, 0 => l
  | [], _ => []
  | [x], _ => [x]
  | x :: y :: t, n + 1 =>
    if x.distance > y.distance then y :: swapPass (x :: t) n
    else x :: swapPass (y :: t) n

/-- The outer loop: iteration `i` of the Go loop performs `n - 1 - i`
comparisons, so the pass sizes count down from `n - 1` to `1`. -/
def sortLoop {V : Type} : Nat → List (SearchResult V) → List (SearchResult V)
  | 0, l => l
  | c + 1, l => sortLoop c (swapPass l (c + 1))

end sortResults

/-- `SearchResults.Sort` (ascending by distance). -/
def sortResults {V : Type} (l : List (SearchResult V)) :
    List (SearchResult V) :=
  sortResults.sortLoop (l.length - 1) l

namespace sortResults

variable {V : Type}

/-- Ordering by distance. -/
def le (a b : SearchResult V) : Prop := a.distance ≤ b.distance

theorem swapPass_cons₂ (x y : SearchResult V) (t : List (SearchResult V))
    (n : Nat) :
    swapPass (x :: y :: t) (n + 1) =
      if x.distance > y.distance then y :: swapPass (x :: t) n
      else x :: swapPass (y :: t) n := rfl

theorem swapPass_append (n : Nat) (a b : List (SearchResult V))
    (ha : a.length = n + 1) :
    swapPass (a ++ b) n = swapPass a n ++ b := by
  induction n generalizing a with
  | zero => simp [swapPass]
  | succ n ih =>
    match a with
    | [] =>
      simp only [List.length_nil] at ha
      omega
    | [x] =>
      simp only [List.length_cons, List.length_nil] at ha
      omega
    | x :: y :: t =>
      simp only [List.cons_append, swapPass_cons₂]
      simp only [List.length_cons] at ha
      by_cases hxy : x.distance > y.distance
      · rw [if_pos hxy, if_pos hxy,
          show x :: (t ++ b) = (x :: t) ++ b from rfl,
          ih (x :: t) (by simp only [List.length_cons]; omega)]
        rfl
      · rw [if_neg hxy, if_neg hxy,
          show y :: (t ++ b) = (y :: t) ++ b from rfl,
          ih (y :: t) (by simp only [List.length_cons]; omega)]
        rfl

theorem swapPass_full (a : List (SearchResult V)) (n : Nat)
    (ha : a.length = n + 1) :
    ∃ t m, swapPass a n = t ++ [m] ∧ (swapPass a n).Perm a ∧
      ∀ x ∈ a, x.distance ≤ m.distance := by
  induction n generalizing a with
  | zero =>
    match a with
    | [] =>
      simp only [List.length_nil] at ha
      omega
    | [x] => exact ⟨[], x, rfl, List.Perm.refl _, by simp⟩
    | x :: y :: t =>
      simp only [List.length_cons] at ha
      omega
  | succ n ih =>
    match a with
    | [] =>
      simp only [List.length_nil] at ha
      omega
    | [x] =>
      simp only [List.length_cons, List.length_nil] at ha
      omega
    | x :: y :: t =>
      rw [swapPass_cons₂]
      simp only [List.length_cons] at ha
      by_cases hxy : x.distance > y.distance
      · rw [if_pos hxy]
        obtain ⟨t2, m, heq, hperm, hmax⟩ := ih (x :: t)
          (by simp only [List.length_cons]; omega)
        refine ⟨y :: t2, m, by rw [heq]; rfl,
          (hperm.cons y).trans (List.Perm.swap x y t), ?_⟩
        intro w hw
        rcases List.mem_cons.mp hw with hw | hw
        · subst hw
          exact hmax w (by simp)
        · rcases List.mem_cons.mp hw with hw | hw
          · subst hw
            exact le_trans (le_of_lt hxy) (hmax x (by simp))
          · exact hmax w (by simp [hw])
      · rw [if_neg hxy]
        obtain ⟨t2, m, heq, hperm, hmax⟩ := ih (y :: t)
          (by simp only [List.length_cons]; omega)
        refine ⟨x :: t2, m, by rw [heq]; rfl, hperm.cons x, ?_⟩
        intro w hw
        rcases List.mem_cons.mp hw with hw | hw
        · subst hw
          exact le_trans (not_lt.mp hxy) (hmax y (by simp))
        · exact hmax w hw

theorem sortLoop_sorted (c : Nat) (l : List (SearchResult V))
    (hc : c + 1 ≤ l.length)
    (hsuf : (l.drop (c + 1)).Pairwise le)
    (hsep : ∀ x ∈ l.take (c + 1), ∀ y ∈ l.drop (c + 1), le x y) :
    (sortLoop c l).Pairwise le ∧ (sortLoop c l).Perm l := by
  induction c generalizing l with
  | zero =>
    simp only [sortLoop]
    refine ⟨?_, List.Perm.refl _⟩
    cases l with
    | nil => simp
    | cons x t =>
      simp only [List.drop_succ_cons, List.drop_zero] at hsuf
      refine List.pairwise_cons.mpr ⟨?_, hsuf⟩
      intro y hy
      exact hsep x (by simp) y (by simpa using hy)
  | succ c ih =>
    simp only [sortLoop]
    have hsplit : l = l.take (c + 2) ++ l.drop (c + 2) :=
      (List.take_append_drop _ l).symm
    have hlen : (l.take (c + 2)).length = c + 2 :=
      List.length_take_of_le (by omega)
    obtain ⟨t2, m, heq, hperm, hmax⟩ :=
      swapPass_full (l.take (c + 2)) (c + 1) hlen
    have hpass : swapPass l (c + 1) =
        (t2 ++ [m]) ++ l.drop (c + 2) := by
      conv_lhs => rw [hsplit]
      rw [swapPass_append (c + 1) _ _ hlen, heq]
    have ht2len : t2.length = c + 1 := by
      have h := hperm.length_eq
      rw [heq] at h
      simp only [List.length_append, List.length_cons, List.length_nil,
        hlen] at h
      omega
    have hmem₂ : ∀ x ∈ t2 ++ [m], x ∈ l.take (c + 2) := by
      intro x hx
      have hx2 : x ∈ swapPass (l.take (c + 2)) (c + 1) := by
        rw [heq]; exact hx
      exact hperm.mem_iff.mp hx2
    have hdropNew : (swapPass l (c + 1)).drop (c + 1) =
        m :: l.drop (c + 2) := by
      rw [hpass, List.append_assoc, show c + 1 = t2.length from ht2len.symm,
        List.drop_left]
      rfl
    have htakeNew : (swapPass l (c + 1)).take (c + 1) = t2 := by
      rw [hpass, List.append_assoc, show c + 1 = t2.length from ht2len.symm,
        List.take_left]
    have hres := ih (swapPass l (c + 1))
      (by
        rw [hpass]
        simp only [List.length_append, List.length_cons, List.length_nil,
          ht2len]
        omega)
      (by
        rw [hdropNew]
        exact List.pairwise_cons.mpr
          ⟨fun y hy => hsep m (hmem₂ m (by simp)) y hy, hsuf⟩)
      (by
        intro x hx y hy
        rw [htakeNew] at hx
        rw [hdropNew] at hy
        have hxmem : x ∈ l.take (c + 2) := hmem₂ x (by simp [hx])
        rcases List.mem_cons.mp hy with hy | hy
        · subst hy
          exact hmax x hxmem
        · exact hsep x hxmem y hy)
    refine ⟨hres.1, hres.2.trans ?_⟩
    rw [hpass]
    have h2 : (t2 ++ [m]).Perm (l.take (c + 2)) := heq ▸ hperm
    exact (h2.append_right _).trans (by rw [List.take_append_drop])

theorem sortResults_spec (l : List (SearchResult V)) :
    (sortResults l).Pairwise le ∧ (sortResults l).Perm l := by
  cases l with
  | nil => exact ⟨by simp [sortResults, sortLoop], List.Perm.refl _⟩
  | cons x t =>
    unfold sortResults
    simp only [List.length_cons, Nat.add_sub_cancel]
    cases t with
    | nil =>
      refine sortLoop_sorted 0 ([x]) (by simp) (by simp) ?_
      intro a ha y hy
      simp at hy
    | cons y t2 =>
      have hlen : (x :: y :: t2).length = t2.length + 2 := by simp
      refine sortLoop_sorted (t2.length + 1) (x :: y :: t2) (by simp) ?_ ?_
      · rw [show t2.length + 1 + 1 = (x :: y :: t2).length by simp]
        simp
      · intro a ha b hb
        rw [show t2.length + 1 + 1 = (x :: y :: t2).length by simp] at hb
        simp at hb

end sortResults

namespace flat

/-! ## Flat index — `pkg/index/flat/flat.go`

`vectors` is the `map[string]*vector.Vector` (association list, list
order = iteration order); `metric` is the possibly-nil metric. -/

/-- `flat.FlatIndex`. -/
structure FlatIndex (V : Type) where
  vectors : List (String × V)
  metric : Option (V → V → Except Unit ℚ)

/-- Go map assignment on the id-keyed association list. -/
def upsertV {V : Type} (l : List (String × V)) (k : String) (v : V) :
    List (String × V) :=
  match l with
  | [] => [(k, v)]
  | (k1, v1) :: t => if k1 = k then (k, v) :: t else (k1, v1) :: upsertV t k v

/-- `Build`: reset, then copy every input record into the map
(duplicate ids overwrite, as Go map assignment does). -/
def build {V : Type} (idx : FlatIndex V) (vecs : List (String × V)) :
    FlatIndex V :=
  { idx with vectors := vecs.foldl (fun m kv => upsertV m kv.1 kv.2) [] }

/-- The distance loop of `Search`: first metric error aborts, otherwise
one result per stored record in iteration order. -/
def computeResults {V : Type} (m : V → V → Except Unit ℚ) (q : V) :
    List (String × V) → Except IndexErr (List (SearchResult V))
  | [] => .ok []
  | (id, vec) :: t =>
    match m q vec with
    | .error _ => .error .distanceFailed
    | .ok d =>
      match computeResults m q t with
      | .error e => .error e
      | .ok rs => .ok (⟨id, vec, d⟩ :: rs)

/-- `FlatIndex.Search`. -/
def search {V : Type} (idx : FlatIndex V) (query : V) (k : Int) :
    Except IndexErr (List (SearchResult V)) :=
  if idx.vectors.length = 0 then .error .noVectors
  else if k < 1 then .error .invalidK
  else
    match idx.metric with
    | none => .error .metricRequired
    | some m =>
      match computeResults m query idx.vectors with
      | .error e => .error e
      | .ok results =>
        let sorted := sortResults results
        let k2 : Int := if k > (sorted.length : Int) then sorted.length else k
        .ok (sorted.take k2.toNat)

/-- `FlatIndex.Size`. -/
def size {V : Type} (idx : FlatIndex V) : Nat := idx.vectors.length

theorem computeResults_length {V : Type} (m : V → V → Except Unit ℚ) (q : V)
    (l : List (String × V)) (rs : List (SearchResult V))
    (h : computeResults m q l = .ok rs) : rs.length = l.length := by
  induction l generalizing rs with
  | nil =>
    simp only [computeResults] at h
    cases h
    rfl
  | cons p t ih =>
    simp only [computeResults] at h
    rcases hm : m q p.2 with e | d <;> rw [hm] at h
    · cases h
    · rcases hc : computeResults m q t with e | rs2 <;> rw [hc] at h
      · cases h
      · cases h
        simp [ih rs2 hc]

end flat

/-- C6.  Flat `Search`: empty-index, invalid-k and missing-metric errors
in the code's checking order; otherwise the result is the
`min(k, size)`-prefix of the full ascending sort of all stored records
by distance to the query — so it has exactly `min(k, size)` entries, is
sorted ascending, and for `k ≤ |V|` equals the first `k` entries of the
full sort (which is a permutation of all computed results). -/
theorem C6_flat_search {V : Type} (idx : flat.FlatIndex V) (q : V) :
    (idx.vectors = [] → ∀ k, flat.search idx q k = .error .noVectors) ∧
    (∀ k : Int, idx.vectors ≠ [] → k < 1 →
      flat.search idx q k = .error .invalidK) ∧
    (∀ k : Int, idx.vectors ≠ [] → ¬k < 1 → idx.metric = none →
      flat.search idx q k = .error .metricRequired) ∧
    (∀ m rs, idx.vectors ≠ [] → idx.metric = some m →
      flat.computeResults m q idx.vectors = .ok rs →
      (sortResults rs).Perm rs ∧
      (sortResults rs).Pairwise sortResults.le ∧
      (∀ k : Int, 1 ≤ k →
        flat.search idx q k =
          .ok ((sortResults rs).take (min k.toNat (flat.size idx))) ∧
        ((sortResults rs).take (min k.toNat (flat.size idx))).length =
          min k.toNat (flat.size idx))) := by
  refine ⟨?_, ?_, ?_, ?_⟩
  · intro hempty k
    unfold flat.search
    rw [if_pos (by simp [hempty])]
  · intro k hne hk
    unfold flat.search
    rw [if_neg (by simpa using hne), if_pos hk]
  · intro k hne hk hm
    unfold flat.search
    rw [if_neg (by simpa using hne), if_neg hk, hm]
  · intro m rs hne hm hrs
    obtain ⟨hsorted, hperm⟩ := sortResults.sortResults_spec rs
    have hlen : (sortResults rs).length = idx.vectors.length := by
      rw [hperm.length_eq, flat.computeResults_length m q idx.vectors rs hrs]
    refine ⟨hperm, hsorted, ?_⟩
    intro k hk
    have hk2 : (if k > ((sortResults rs).length : Int)
        then ((sortResults rs).length : Int) else k).toNat =
        min k.toNat (flat.size idx) := by
      unfold flat.size
      rw [hlen]
      by_cases hgt : k > (idx.vectors.length : Int)
      · rw [if_pos hgt]
        omega
      · rw [if_neg hgt]
        omega
    constructor
    · unfold flat.search
      rw [if_neg (by simpa using hne), if_neg (by omega)]
      simp only [hm, hrs]
      rw [hk2]
    · rw [List.length_take, hlen]
      unfold flat.size
      omega

/-- C6, witness: three 1-dimensional records with distances 1, 2, 3 and
`k = 2` return the two closest, sorted ascending. -/
theorem C6_flat_search_witness :
    flat.search ⟨[("v1", (1 : ℚ)), ("v2", 2), ("v3", 3)],
        some fun _ b => .ok b⟩ 0 2 =
      .ok [⟨"v1", 1, 1⟩, ⟨"v2", 2, 2⟩] := by
  have h := ((C6_flat_search ⟨[("v1", (1 : ℚ)), ("v2", 2), ("v3", 3)],
      some fun _ b => .ok b⟩ 0).2.2.2
      (fun _ b => .ok b)
      [⟨"v1", 1, 1⟩, ⟨"v2", 2, 2⟩, ⟨"v3", 3, 3⟩]
      (by simp) rfl rfl).2.2 2 (by omega)
  rw [h.1]
  have hlist : (sortResults [(⟨"v1", 1, 1⟩ : SearchResult ℚ),
      ⟨"v2", 2, 2⟩, ⟨"v3", 3, 3⟩]).take
      (min (Int.toNat 2) (flat.size ⟨[("v1", (1 : ℚ)), ("v2", 2), ("v3", 3)],
        some fun _ b => .ok b⟩)) = [⟨"v1", 1, 1⟩, ⟨"v2", 2, 2⟩] := by
    decide
  rw [hlist]

namespace hnsw

/-! ## HNSW index — `pkg/index/hnsw/hnsw.go`

Go maps keyed by id are association lists whose order stands for the
map's iteration order; `map[k] = v` is `upsertA`.  Levels assigned by
`randomLevel` are supplied as explicit arguments (a "level oracle"):
every behaviour of the seeded RNG corresponds to some argument choice,
so theorems quantified over levels cover all RNG behaviours.  The
floating-point `maxLevel` computation in `Build`
(`int(log n / log M)`) is likewise an explicit argument; its value only
feeds `randomLevel` and never the claims below. -/

/-- Generic association-list lookup (Go map read, first binding wins). -/
def lookupA {A : Type} : List (String × A) → String → Option A
  | [], _ => none
  | (k, v) :: t, key => if k = key then some v else lookupA t key

/-- Generic association-list store (Go map assignment). -/
def upsertA {A : Type} : List (String × A) → String → A → List (String × A)
  | [], key, v => [(key, v)]
  | (k, w) :: t, key, v =>
    if k = key then (key, v) :: t else (k, w) :: upsertA t key v

/-- `HNSWConfig` (the float `LevelMult` only feeds the RNG, which the
model replaces by explicit level arguments). -/
structure HNSWConfig where
  M : Nat
  efConstruction : Nat
  efSearch : Nat
  maxLevel : Nat
  deriving Repr, DecidableEq

/-- `hnsw.Node`: vector, per-level edge maps, level, tombstone flag. -/
structure Node (V : Type) where
  vec : V
  edges : List (List (String × ℚ))
  level : Nat
  deleted : Bool

/-- `hnsw.HNSWIndex` (lock and RNG omitted: the model is sequential and
levels are explicit). -/
structure HNSWIndex (V : Type) where
  nodes : List (String × Node V)
  entryPoint : String
  currentMaxLevel : Nat
  metric : Option (V → V → Except Unit ℚ)
  config : HNSWConfig

/-- `idx.distance`: `ErrMetricRequired` when no metric is set, else the
metric call. -/
def distOf {V : Type} (idx : HNSWIndex V) (a b : V) : Except Unit ℚ :=
  match idx.metric with
  | none => .error ()
  | some m => m a b

/-- `distItem`. -/
structure distItem where
  id : String
  distance : ℚ
  deriving Repr, DecidableEq

/-- `distQueue`: unordered array plus capacity (`maxSize = 0` means
unbounded, as in the Go `push`). -/
structure distQueue where
  items : List distItem
  maxSize : Nat
  deriving Repr, DecidableEq

/-- The scan inside `push`/`pop`: index of the extremal item.  `cmp`
must hold strictly for an item to replace the running best, so the
FIRST extremal item wins ties, as in the Go loops. -/
def scanIdx (cmp : ℚ → ℚ → Bool) : List distItem → Nat → ℚ → Nat → Nat
  | [], _, _, best => best
  | x :: t, i, bestD, best =>
    if cmp x.distance bestD then scanIdx cmp t (i + 1) x.distance i
    else scanIdx cmp t (i + 1) bestD best

/-- Index of the furthest item (first maximum). -/
def findMaxIdx (items : List distItem) : Nat :=
  match items with
  | [] => 0
  | x :: t => scanIdx (fun a b => a > b) t 1 x.distance 0

/-- Index of the closest item (first minimum). -/
def findMinIdx (items : List distItem) : Nat :=
  match items with
  | [] => 0
  | x :: t => scanIdx (fun a b => a < b) t 1 x.distance 0

/-- `append(items[:i], items[i+1:]...)`. -/
def removeIdx (l : List distItem) (i : Nat) : List distItem :=
  l.take i ++ l.drop (i + 1)

/-- `distQueue.push`: append, then evict the furthest item when over
capacity (only when `maxSize > 0`). -/
def pushQ (q : distQueue) (id : String) (d : ℚ) : distQueue :=
  let items := q.items ++ [⟨id, d⟩]
  if q.maxSize > 0 ∧ items.length > q.maxSize then
    { q with items := removeIdx items (findMaxIdx items) }
  else { q with items := items }

/-- `distQueue.pop`: remove and return the closest item.  The Go code
indexes `items[0]` unconditionally and panics on an empty queue; the
loop below only pops non-empty queues, and the model returns a dummy
item for `[]`. -/
def popQ (q : distQueue) : distItem × distQueue :=
  match q.items with
  | [] => (⟨"", 0⟩, q)
  | _ :: _ =>
    let i := findMinIdx q.items
    ((q.items.getD i ⟨"", 0⟩), { q with items := removeIdx q.items i })

/-- `distQueue.maxDist`: 0 for an empty queue, else the maximum
distance. -/
def maxDistQ (q : distQueue) : ℚ :=
  match q.items with
  | [] => 0
  | x :: t => t.foldl (fun m y => if y.distance > m then y.distance else m)
      x.distance

/-- First non-tombstoned binding (the fallback scan of
`searchLayerInternal`, map order = list order). -/
def firstLive {V : Type} (nodes : List (String × Node V)) :
    Option (String × Node V) :=
  nodes.find? fun p => ¬p.2.deleted

/-- The neighbor loop of `searchLayerInternal` at one popped node:
returns updated `(visited, candidates, results)`.  A neighbor id
missing from the node table would be a nil-pointer panic in Go; edges
only ever point at existing nodes, and the model skips such ids. -/
def processNeighbors {V : Type} (idx : HNSWIndex V) (query : V) (ef : Nat) :
    List (String × ℚ) → List String → distQueue → distQueue →
      List String × distQueue × distQueue
  | [], visited, cand, results => (visited, cand, results)
  | (nid, _) :: rest, visited, cand, results =>
    if nid ∈ visited then processNeighbors idx query ef rest visited cand results
    else
      let visited2 := nid :: visited
      match lookupA idx.nodes nid with
      | none => processNeighbors idx query ef rest visited2 cand results
      | some nn =>
        if nn.deleted then
          processNeighbors idx query ef rest visited2 cand results
        else
          match distOf idx query nn.vec with
          | .error _ => processNeighbors idx query ef rest visited2 cand results
          | .ok nd =>
            if results.items.length < ef ∨ nd < maxDistQ results then
              processNeighbors idx query ef rest visited2
                (pushQ cand nid nd) (pushQ results nid nd)
            else processNeighbors idx query ef rest visited2 cand results

/-- The frontier loop of `searchLayerInternal`.  Fuel bounds the number
of iterations; each iteration pops one item, and at most
`|nodes| + 1` items are ever pushed (the visited set admits each id
once), so the fuel chosen by `searchLayerInternal` never runs out. -/
def searchLoop {V : Type} (idx : HNSWIndex V) (query : V) (ef level : Nat) :
    Nat → List String → distQueue → distQueue → distQueue
  | 0, _, _, results => results
  | fuel + 1, visited, cand, results =>
    if cand.items.isEmpty then results
    else
      let (current, cand2) := popQ cand
      if maxDistQ results < current.distance then results
      else
        match lookupA idx.nodes current.id with
        | none => searchLoop idx query ef level fuel visited cand2 results
        | some cn =>
          if cn.deleted ∨ level > cn.level then
            searchLoop idx query ef level fuel visited cand2 results
          else
            let (v2, c3, r3) := processNeighbors idx query ef
              (cn.edges.getD level []) visited cand2 results
            searchLoop idx query ef level fuel v2 c3 r3

/-- Drain a queue by repeated `pop` (the conversion loop at the end of
`searchLayerInternal`). -/
def drainGo : Nat → distQueue → List distItem
  | 0, _ => []
  | n + 1, q =>
    if q.items.isEmpty then []
    else
      let (x, q2) := popQ q
      x :: drainGo n q2

/-- Insert into a distance-sorted list (model of `sort.Slice` with the
`Distance <` comparator; `sort.Slice` is unstable, so any ascending
sort is a faithful model). -/
def insertPair (x : String × ℚ) : List (String × ℚ) → List (String × ℚ)
  | [] => [x]
  | y :: t => if x.2 ≤ y.2 then x :: y :: t else y :: insertPair x t

/-- Ascending sort by distance. -/
def sortPairs : List (String × ℚ) → List (String × ℚ)
  | [] => []
  | x :: t => insertPair x (sortPairs t)

/-- `searchLayerInternal(query, entryID, ef, level)`. -/
def searchLayerInternal {V : Type} (idx : HNSWIndex V) (query : V)
    (entryID : String) (ef level : Nat) : List (String × ℚ) :=
  if idx.nodes.isEmpty then []
  else
    let ent : Option (String × Node V) :=
      match lookupA idx.nodes entryID with
      | some n => if n.deleted then firstLive idx.nodes else some (entryID, n)
      | none => firstLive idx.nodes
    match ent with
    | none => []
    | some (eid, en) =>
      match distOf idx query en.vec with
      | .error _ => []
      | .ok ed =>
        let final := searchLoop idx query ef level (idx.nodes.length + 2)
          [eid] (pushQ ⟨[], ef⟩ eid ed) (pushQ ⟨[], ef⟩ eid ed)
        sortPairs ((drainGo final.items.length final).map
          fun it => (it.id, it.distance))

/-- Modelled from the spec, §4.5.4: the frontier algorithm exactly as
the specification words it — identical to `searchLayerInternal` except
that the candidate list is a min-queue with NO size bound (every pushed
neighbor stays until popped), while only `results` is bounded at `ef`.
Used to compare the specified algorithm with the implemented one. -/
def searchLayerSpec {V : Type} (idx : HNSWIndex V) (query : V)
    (entryID : String) (ef level : Nat) : List (String × ℚ) :=
  if idx.nodes.isEmpty then []
  else
    let ent : Option (String × Node V) :=
      match lookupA idx.nodes entryID with
      | some n => if n.deleted then firstLive idx.nodes else some (entryID, n)
      | none => firstLive idx.nodes
    match ent with
    | none => []
    | some (eid, en) =>
      match distOf idx query en.vec with
      | .error _ => []
      | .ok ed =>
        let final := searchLoop idx query ef level (idx.nodes.length + 2)
          [eid] (pushQ ⟨[], 0⟩ eid ed) (pushQ ⟨[], ef⟩ eid ed)
        sortPairs ((drainGo final.items.length final).map
          fun it => (it.id, it.distance))

/-- Set `nodes[nodeId].Edges[level][nbrId] = d`.  A missing node or a
too-short edge array would panic in Go; both are unreachable in the
states the operations build, and the model leaves the index
unchanged there (`List.set` out of range is the identity). -/
def setEdge {V : Type} (idx : HNSWIndex V) (nodeId : String) (level : Nat)
    (nbrId : String) (d : ℚ) : HNSWIndex V :=
  match lookupA idx.nodes nodeId with
  | none => idx
  | some n =>
    let e2 := upsertA (n.edges.getD level []) nbrId d
    { idx with
      nodes := upsertA idx.nodes nodeId { n with edges := n.edges.set level e2 } }

/-- `pruneConnections`: keep only the `m` closest edges (sorted
ascending by distance, `sort.Slice` modelled as any ascending sort). -/
def pruneEdges (edges : List (String × ℚ)) (m : Nat) : List (String × ℚ) :=
  if edges.length ≤ m then edges
  else (sortPairs edges).take m

/-- One iteration of the bidirectional-connection loop of
`addInternal`: edge `id → nbr`, back-edge `nbr → id` unless the
neighbor is tombstoned or its level is below `level`, then pruning
when the neighbor's degree exceeds `m`. -/
def connectStep {V : Type} (id : String) (level m : Nat)
    (acc : HNSWIndex V) (nbr : String × ℚ) : HNSWIndex V :=
  let acc1 := setEdge acc id level nbr.1 nbr.2
  match lookupA acc1.nodes nbr.1 with
  | none => acc1
  | some nn =>
    if nn.deleted then acc1
    else if level ≤ nn.level then
      let acc2 := setEdge acc1 nbr.1 level id nbr.2
      match lookupA acc2.nodes nbr.1 with
      | none => acc2
      | some n2 =>
        if (n2.edges.getD level []).length > m then
          { acc2 with
            nodes := upsertA acc2.nodes nbr.1
              { n2 with edges :=
                  (n2.edges.set level
                    (pruneEdges (n2.edges.getD level []) m)) } }
        else acc2
    else acc1

/-- The bidirectional-connection loop of `addInternal` for the retained
neighbors of one level. -/
def connectNeighbors {V : Type} (idx0 : HNSWIndex V) (id : String)
    (nbrs : List (String × ℚ)) (level m : Nat) : HNSWIndex V :=
  nbrs.foldl (connectStep id level m) idx0

/-- The per-level connection loop of `addInternal`
(`for level := min(nodeLevel, currentMaxLevel); level >= 0; level--`),
with `l` the current level. -/
def connectLevels {V : Type} : Nat → HNSWIndex V → String → V → String →
    HNSWIndex V
  | l, idx, id, vec, ep =>
    let neighbors0 := searchLayerInternal idx vec ep idx.config.efConstruction l
    let m := if l = 0 then 2 * idx.config.M else idx.config.M
    let neighbors :=
      if neighbors0.length > m then neighbors0.take m else neighbors0
    let idx2 := connectNeighbors idx id neighbors l m
    let ep2 := match neighbors with | [] => ep | n :: _ => n.1
    match l with
    | 0 => idx2
    | l2 + 1 => connectLevels l2 idx2 id vec ep2

/-- `addInternal(vec)` with the node's random level given explicitly. -/
def addInternal {V : Type} (idx : HNSWIndex V) (id : String) (vec : V)
    (nodeLevel : Nat) : HNSWIndex V :=
  let node : Node V :=
    ⟨vec, List.replicate (nodeLevel + 1) [], nodeLevel, false⟩
  let idx1 := { idx with nodes := upsertA idx.nodes id node }
  if idx.entryPoint = "" then
    { idx1 with entryPoint := id, currentMaxLevel := nodeLevel }
  else
    let ep := idx.entryPoint
    let idx2 :=
      if nodeLevel > idx.currentMaxLevel then
        { idx1 with currentMaxLevel := nodeLevel, entryPoint := id }
      else idx1
    connectLevels (min nodeLevel idx2.currentMaxLevel) idx2 id vec ep

/-- `Add`: duplicate-id check, then `addInternal`. -/
def addOp {V : Type} (idx : HNSWIndex V) (id : String) (vec : V)
    (level : Nat) : Except IndexErr (HNSWIndex V) :=
  match lookupA idx.nodes id with
  | some _ => .error .vectorAlreadyExists
  | none => .ok (addInternal idx id vec level)

/-- `Build`: reset, compute `maxLevel` when unset (`mlCalc` stands for
the floating-point `int(log n / log M)`), then add every vector with
its oracle level. -/
def buildOp {V : Type} (idx : HNSWIndex V)
    (input : List (String × V × Nat)) (mlCalc : Nat) : HNSWIndex V :=
  let cfg := idx.config
  let cfg2 :=
    if cfg.maxLevel = 0 then
      { cfg with maxLevel := if input.length > 0 then mlCalc else 1 }
    else cfg
  let idx0 : HNSWIndex V :=
    { nodes := [], entryPoint := "", currentMaxLevel := 0,
      metric := idx.metric, config := cfg2 }
  input.foldl (fun acc p => addInternal acc p.1 p.2.1 p.2.2) idx0

/-- The body of the first `updateEntryPoint` loop: keep the running
`(entryPoint, currentMaxLevel)` unless the node is live and strictly
higher. -/
def epStep {V : Type} (acc : String × Nat) (p : String × Node V) :
    String × Nat :=
  if ¬p.2.deleted ∧ p.2.level > acc.2 then (p.1, p.2.level) else acc

/-- `updateEntryPoint`: reset, argmax scan over non-tombstoned nodes
(strict improvement, so only levels `> 0` are found), then the
first-live fallback. -/
def updateEntryPoint {V : Type} (idx : HNSWIndex V) : HNSWIndex V :=
  let first := idx.nodes.foldl epStep ("", 0)
  if first.1 = "" then
    match firstLive idx.nodes with
    | some (id, n) => { idx with entryPoint := id, currentMaxLevel := n.level }
    | none => { idx with entryPoint := "", currentMaxLevel := 0 }
  else { idx with entryPoint := first.1, currentMaxLevel := first.2 }

/-- `Delete`: tombstone the node; recompute the entry point when the
deleted id was the entry point. -/
def deleteOp {V : Type} (idx : HNSWIndex V) (id : String) :
    Except IndexErr (HNSWIndex V) :=
  match lookupA idx.nodes id with
  | none => .error .vectorNotFound
  | some node =>
    let idx1 :=
      { idx with nodes := upsertA idx.nodes id { node with deleted := true } }
    if idx.entryPoint = id then .ok (updateEntryPoint idx1) else .ok idx1

/-- `Size`: non-tombstoned nodes only. -/
def sizeOp {V : Type} (idx : HNSWIndex V) : Nat :=
  (idx.nodes.filter fun p => ¬p.2.deleted).length

/-- `GetIDs`: ids of non-tombstoned nodes. -/
def getIDs {V : Type} (idx : HNSWIndex V) : List String :=
  (idx.nodes.filter fun p => ¬p.2.deleted).map Prod.fst

/-- The descent loop of `Search` (`for level := currentMaxLevel;
level > 0; level--` with `ef = 1`). -/
def descendLoop {V : Type} (idx : HNSWIndex V) (query : V) :
    Nat → String → String
  | 0, ep => ep
  | l + 1, ep =>
    let nb := searchLayerInternal idx query ep 1 (l + 1)
    descendLoop idx query l (match nb with | [] => ep | n :: _ => n.1)

/-- The tail of `Search`: descent from the top level, level-0 search
with `ef = max(k, efSearch)`, and result materialization — the first
`k` layer results, skipping tombstones (a missing id would panic in Go
and is skipped; layer results only name existing nodes). -/
def searchResultsOf {V : Type} (idx2 : HNSWIndex V) (query : V) (k : Int) :
    List (SearchResult V) :=
  let ep := descendLoop idx2 query idx2.currentMaxLevel idx2.entryPoint
  let neighbors := searchLayerInternal idx2 query ep
    (max k.toNat idx2.config.efSearch) 0
  (neighbors.take k.toNat).filterMap fun nb =>
    match lookupA idx2.nodes nb.1 with
    | none => none
    | some n => if n.deleted then none else some ⟨nb.1, n.vec, nb.2⟩

/-- `Search(query, k)`.  Returns the (possibly entry-point-repaired)
index together with the result.  A non-empty entry id missing from the
node table would be a nil-pointer panic in Go; the model treats it as
tombstoned and repairs. -/
def searchOp {V : Type} (idx : HNSWIndex V) (query : V) (k : Int) :
    HNSWIndex V × Except IndexErr (List (SearchResult V)) :=
  if idx.nodes.isEmpty then (idx, .error .noVectors)
  else if k < 1 then (idx, .error .invalidK)
  else
    match idx.metric with
    | none => (idx, .error .metricRequired)
    | some _ =>
      let entryBad : Bool :=
        if idx.entryPoint = "" then true
        else
          match lookupA idx.nodes idx.entryPoint with
          | none => true
          | some n => n.deleted
      if entryBad then
        let validCount := (idx.nodes.filter fun p => ¬p.2.deleted).length
        if validCount = 0 then (idx, .error .noVectors)
        else
          let idx2 := updateEntryPoint idx
          if idx2.entryPoint = "" then (idx2, .error .noVectors)
          else (idx2, .ok (searchResultsOf idx2 query k))
      else (idx, .ok (searchResultsOf idx query k))

variable {V : Type}

theorem lookupA_upsertA_self (l : List (String × V)) (k : String) (v : V) :
    lookupA (upsertA l k v) k = some v := by
  induction l with
  | nil => simp [upsertA, lookupA]
  | cons p t ih =>
    by_cases h : p.1 = k
    · simp [upsertA, h, lookupA]
    · simp only [upsertA]
      rw [if_neg (by simpa using h)]
      simp only [lookupA]
      rw [if_neg (by simpa using h)]
      exact ih

theorem lookupA_upsertA_ne (l : List (String × V)) (k k2 : String) (v : V)
    (h : k2 ≠ k) : lookupA (upsertA l k v) k2 = lookupA l k2 := by
  induction l with
  | nil =>
    simp only [upsertA, lookupA]
    rw [if_neg (fun hc => h hc.symm)]
  | cons p t ih =>
    by_cases hp : p.1 = k
    · simp only [upsertA]
      rw [if_pos (by simpa using hp)]
      simp only [lookupA]
      rw [if_neg (fun hc => h hc.symm), if_neg (by rw [hp]; exact fun hc => h hc.symm)]
    · simp only [upsertA]
      rw [if_neg (by simpa using hp)]
      simp only [lookupA]
      by_cases hpk : p.1 = k2
      · rw [if_pos (by simpa using hpk), if_pos (by simpa using hpk)]
      · rw [if_neg (by simpa using hpk), if_neg (by simpa using hpk)]
        exact ih

theorem upsertA_self_eq (l : List (String × V)) (k : String) (v : V)
    (h : lookupA l k = some v) : upsertA l k v = l := by
  induction l with
  | nil => simp [lookupA] at h
  | cons p t ih =>
    by_cases hp : p.1 = k
    · simp only [lookupA] at h
      rw [if_pos (by simpa using hp)] at h
      cases h
      simp only [upsertA]
      rw [if_pos (by simpa using hp)]
      rw [← hp]
    · simp only [lookupA] at h
      rw [if_neg (by simpa using hp)] at h
      simp only [upsertA]
      rw [if_neg (by simpa using hp), ih h]

theorem upsertA_map_fst_of_mem (l : List (String × V)) (k : String) (v w : V)
    (h : lookupA l k = some w) :
    (upsertA l k v).map Prod.fst = l.map Prod.fst := by
  induction l with
  | nil => simp [lookupA] at h
  | cons p t ih =>
    by_cases hp : p.1 = k
    · simp only [upsertA]
      rw [if_pos (by simpa using hp)]
      simp [hp]
    · simp only [lookupA] at h
      rw [if_neg (by simpa using hp)] at h
      simp only [upsertA]
      rw [if_neg (by simpa using hp)]
      simp [ih h]

theorem upsertA_map_fst_of_fresh (l : List (String × V)) (k : String) (v : V)
    (h : lookupA l k = none) :
    (upsertA l k v).map Prod.fst = l.map Prod.fst ++ [k] := by
  induction l with
  | nil => simp [upsertA]
  | cons p t ih =>
    simp only [lookupA] at h
    by_cases hp : p.1 = k
    · rw [if_pos (by simpa using hp)] at h
      cases h
    · rw [if_neg (by simpa using hp)] at h
      simp only [upsertA]
      rw [if_neg (by simpa using hp)]
      simp [ih h]

theorem lookupA_mem (l : List (String × V)) (k : String) (v : V)
    (h : lookupA l k = some v) : (k, v) ∈ l := by
  induction l with
  | nil => simp [lookupA] at h
  | cons p t ih =>
    simp only [lookupA] at h
    by_cases hp : p.1 = k
    · rw [if_pos (by simpa using hp)] at h
      cases h
      have hkp : (k, p.2) = p := by
        cases p
        simp only at hp ⊢
        rw [hp]
      rw [hkp]
      exact List.mem_cons_self _ _
    · rw [if_neg (by simpa using hp)] at h
      exact List.mem_cons_of_mem _ (ih h)

theorem lookupA_eq_none (l : List (String × V)) (k : String) :
    lookupA l k = none ↔ k ∉ l.map Prod.fst := by
  induction l with
  | nil => simp [lookupA]
  | cons p t ih =>
    simp only [lookupA, List.map_cons, List.mem_cons]
    by_cases hp : p.1 = k
    · rw [if_pos (by simpa using hp)]
      simp [hp]
    · rw [if_neg (by simpa using hp)]
      rw [ih]
      constructor
      · intro h hc
        rcases hc with hc | hc
        · exact hp hc.symm
        · exact h hc
      · intro h hc
        exact h (Or.inr hc)

theorem mem_lookupA (l : List (String × V)) (k : String) (v : V)
    (hmem : (k, v) ∈ l) (hnd : (l.map Prod.fst).Nodup) :
    lookupA l k = some v := by
  induction l with
  | nil => simp at hmem
  | cons p t ih =>
    simp only [List.map_cons, List.nodup_cons] at hnd
    rcases List.mem_cons.mp hmem with hmem | hmem
    · subst hmem
      simp [lookupA]
    · simp only [lookupA]
      rw [if_neg ?_]
      · exact ih hmem hnd.2
      · intro hc
        exact hnd.1 (hc ▸ List.mem_map_of_mem Prod.fst hmem)

theorem firstLive_spec (nodes : List (String × Node V)) :
    (∀ p, firstLive nodes = some p → p ∈ nodes ∧ p.2.deleted = false) ∧
    (firstLive nodes = none → ∀ p ∈ nodes, p.2.deleted = true) := by
  constructor
  · intro p hp
    refine ⟨List.mem_of_find?_eq_some hp, ?_⟩
    have := List.find?_some hp
    simpa using this
  · intro h p hp
    have := List.find?_eq_none.mp h p hp
    simpa using this

theorem updateEntryPoint_nodes (idx : HNSWIndex V) :
    (updateEntryPoint idx).nodes = idx.nodes := by
  unfold updateEntryPoint
  simp only []
  split
  · split <;> rfl
  · rfl

theorem updateEntryPoint_metric (idx : HNSWIndex V) :
    (updateEntryPoint idx).metric = idx.metric := by
  unfold updateEntryPoint
  simp only []
  split
  · split <;> rfl
  · rfl

/-- C9.  On the HNSW index, `Delete` fails with vector-not-found
exactly when the id is absent from the node table (never added, or
removed by a rebuild); deleting an already-tombstoned id succeeds again
and leaves `Size` unchanged — the size decrease by one happens only on
the first delete. -/
theorem C9_delete_tombstoned (idx : HNSWIndex V) (x : String) :
    (lookupA idx.nodes x = none → deleteOp idx x = .error .vectorNotFound) ∧
    (∀ nx, lookupA idx.nodes x = some nx → nx.deleted = true →
      ∃ idx2, deleteOp idx x = .ok idx2 ∧ sizeOp idx2 = sizeOp idx) := by
  constructor
  · intro h
    unfold deleteOp
    rw [h]
  · intro nx h hdel
    have hnode : { nx with deleted := true } = nx := by
      cases nx
      simp only at hdel
      rw [hdel]
    have hnodes : upsertA idx.nodes x { nx with deleted := true } =
        idx.nodes := by
      rw [hnode]
      exact upsertA_self_eq idx.nodes x nx h
    simp only [deleteOp, h]
    by_cases hep : idx.entryPoint = x
    · rw [if_pos hep]
      refine ⟨_, rfl, ?_⟩
      unfold sizeOp
      rw [updateEntryPoint_nodes]
      simp only [hnodes]
    · rw [if_neg hep]
      refine ⟨_, rfl, ?_⟩
      unfold sizeOp
      simp only [hnodes]

/-- C9, witness: a two-node index whose node `a` is already tombstoned;
deleting `a` again succeeds and the size (1) is unchanged. -/
theorem C9_delete_tombstoned_witness :
    ∃ idx2, deleteOp (V := ℚ)
        ⟨[("a", ⟨1, [[]], 0, true⟩), ("b", ⟨2, [[]], 0, false⟩)],
         "b", 0, none, ⟨16, 200, 50, 1⟩⟩ "a" = .ok idx2 ∧
      sizeOp idx2 = sizeOp (V := ℚ)
        ⟨[("a", ⟨1, [[]], 0, true⟩), ("b", ⟨2, [[]], 0, false⟩)],
         "b", 0, none, ⟨16, 200, 50, 1⟩⟩ :=
  (C9_delete_tombstoned _ "a").2 _ rfl rfl

theorem epFold_spec (l : List (String × Node V)) (acc : String × Nat) :
    acc.2 ≤ (l.foldl epStep acc).2 ∧
    (∀ p ∈ l, p.2.deleted = false → p.2.level ≤ (l.foldl epStep acc).2) ∧
    (l.foldl epStep acc = acc ∨
      ∃ n, ((l.foldl epStep acc).1, n) ∈ l ∧ n.deleted = false ∧
        n.level = (l.foldl epStep acc).2) := by
  induction l generalizing acc with
  | nil => exact ⟨le_refl _, by simp, Or.inl rfl⟩
  | cons p t ih =>
    obtain ⟨h1, h2, h3⟩ := ih (epStep acc p)
    have hstep : acc.2 ≤ (epStep acc p).2 := by
      unfold epStep
      by_cases hc : ¬p.2.deleted ∧ p.2.level > acc.2
      · rw [if_pos hc]
        exact le_of_lt hc.2
      · rw [if_neg hc]
    simp only [List.foldl_cons]
    refine ⟨le_trans hstep h1, ?_, ?_⟩
    · intro q hq hqlive
      rcases List.mem_cons.mp hq with hq | hq
      · subst hq
        by_cases hc : ¬q.2.deleted ∧ q.2.level > acc.2
        · have hq2 : (epStep acc q).2 = q.2.level := by
            unfold epStep
            rw [if_pos hc]
          omega
        · have hle : q.2.level ≤ acc.2 := by
            rcases not_and_or.mp hc with hc | hc
            · exact absurd (by simp [hqlive]) hc
            · omega
          omega
      · exact h2 q hq hqlive
    · rcases h3 with h3 | ⟨n, hn, hnl, hne⟩
      · rw [h3]
        unfold epStep
        by_cases hc : ¬p.2.deleted ∧ p.2.level > acc.2
        · rw [if_pos hc]
          refine Or.inr ⟨p.2, ?_, ?_, rfl⟩
          · simp only []
            left
          · simpa using hc.1
        · rw [if_neg hc]
          exact Or.inl rfl
      · exact Or.inr ⟨n, List.mem_cons_of_mem _ hn, hnl, hne⟩

theorem updateEntryPoint_spec (idx : HNSWIndex V)
    (hnd : (idx.nodes.map Prod.fst).Nodup)
    (hne : "" ∉ idx.nodes.map Prod.fst) :
    ((updateEntryPoint idx).entryPoint = "" →
      ∀ p ∈ idx.nodes, p.2.deleted = true) ∧
    ((updateEntryPoint idx).entryPoint ≠ "" →
      ∃ n, lookupA idx.nodes (updateEntryPoint idx).entryPoint = some n ∧
        n.deleted = false ∧
        n.level = (updateEntryPoint idx).currentMaxLevel ∧
        ∀ p ∈ idx.nodes, p.2.deleted = false → p.2.level ≤ n.level) := by
  obtain ⟨h1, h2, h3⟩ := epFold_spec idx.nodes ("", 0)
  unfold updateEntryPoint
  simp only []
  by_cases hr1 : (idx.nodes.foldl epStep ("", 0)).1 = ""
  · rw [if_pos hr1]
    have hzero : (idx.nodes.foldl epStep ("", 0)).2 = 0 := by
      rcases h3 with h3 | ⟨n, hn, _, _⟩
      · rw [h3]
      · exact absurd (hr1 ▸ List.mem_map_of_mem Prod.fst hn) hne
    rcases hfl : firstLive idx.nodes with _ | p
    · refine ⟨fun _ => (firstLive_spec idx.nodes).2 hfl, fun hc => ?_⟩
      simp at hc
    · obtain ⟨hpm, hpl⟩ := (firstLive_spec idx.nodes).1 p hfl
      constructor
      · intro hc
        simp only at hc
        exact absurd (hc ▸ List.mem_map_of_mem Prod.fst hpm) hne
      · intro _
        refine ⟨p.2, ?_, hpl, rfl, ?_⟩
        · have : (p.1, p.2) = p := rfl
          exact mem_lookupA idx.nodes p.1 p.2 (this ▸ hpm) hnd
        · intro q hq hqlive
          have hq0 := h2 q hq hqlive
          have hp0 := h2 p hpm hpl
          omega
  · rw [if_neg hr1]
    rcases h3 with h3 | ⟨n, hn, hnlive, hnlevel⟩
    · rw [h3] at hr1
      simp at hr1
    · refine ⟨fun hc => absurd hc hr1, fun _ => ⟨n, ?_, hnlive, hnlevel, ?_⟩⟩
      · exact mem_lookupA idx.nodes _ n hn hnd
      · intro q hq hqlive
        have := h2 q hq hqlive
        omega

theorem filter_upsert_dead_length (l : List (String × Node V)) (x : String)
    (nx : Node V) (h : lookupA l x = some nx) (hlive : nx.deleted = false) :
    ((upsertA l x { nx with deleted := true }).filter
        fun p => ¬p.2.deleted).length + 1 =
      (l.filter fun p => ¬p.2.deleted).length := by
  induction l with
  | nil => simp [lookupA] at h
  | cons p t ih =>
    simp only [lookupA] at h
    by_cases hp : p.1 = x
    · rw [if_pos (by simpa using hp)] at h
      cases h
      simp only [upsertA]
      rw [if_pos (by simpa using hp)]
      simp [List.filter_cons, hlive]
    · rw [if_neg (by simpa using hp)] at h
      simp only [upsertA]
      rw [if_neg (by simpa using hp)]
      by_cases hd : p.2.deleted
      · simp only [List.filter_cons, hd]
        simpa using ih h
      · have hcp : (decide ¬(p.2.deleted = true)) = true := by simp [hd]
        simp only [List.filter_cons, hcp]
        simp only [if_true]
        simp only [List.length_cons]
        have := ih h
        omega

theorem searchResultsOf_live (idx2 : HNSWIndex V) (q : V) (k : Int) :
    ∀ r ∈ searchResultsOf idx2 q k,
      ∃ n, lookupA idx2.nodes r.id = some n ∧ n.deleted = false := by
  intro r hr
  unfold searchResultsOf at hr
  simp only [List.mem_filterMap] at hr
  obtain ⟨nb, _, hf⟩ := hr
  rcases hl : lookupA idx2.nodes nb.1 with _ | n <;> rw [hl] at hf
  · cases hf
  · have hf2 : (if n.deleted then none
        else some (⟨nb.1, n.vec, nb.2⟩ : SearchResult V)) = some r := hf
    by_cases hd : n.deleted
    · rw [if_pos hd] at hf2
      cases hf2
    · rw [if_neg hd] at hf2
      cases hf2
      exact ⟨n, hl, by simpa using hd⟩

theorem searchOp_results_live (idx : HNSWIndex V) (q : V) (k : Int)
    (idx3 : HNSWIndex V) (rs : List (SearchResult V))
    (h : searchOp idx q k = (idx3, .ok rs)) :
    ∀ r ∈ rs, ∃ n, lookupA idx.nodes r.id = some n ∧ n.deleted = false := by
  unfold searchOp at h
  by_cases h1 : idx.nodes.isEmpty
  · rw [if_pos h1] at h
    exact absurd (congrArg Prod.snd h) (by simp)
  rw [if_neg h1] at h
  by_cases h2 : k < 1
  · rw [if_pos h2] at h
    exact absurd (congrArg Prod.snd h) (by simp)
  rw [if_neg h2] at h
  rcases hm : idx.metric with _ | m
  · rw [hm] at h
    exact absurd (congrArg Prod.snd h) (by simp)
  · rw [hm] at h
    have h' :
        (if (if idx.entryPoint = "" then true
            else
              match lookupA idx.nodes idx.entryPoint with
              | none => true
              | some n => n.deleted) = true then
          if ((idx.nodes.filter fun p => ¬p.2.deleted).length) = 0 then
            ((idx, .error .noVectors) :
              HNSWIndex V × Except IndexErr (List (SearchResult V)))
          else
            if (updateEntryPoint idx).entryPoint = "" then
              (updateEntryPoint idx, .error .noVectors)
            else (updateEntryPoint idx,
              .ok (searchResultsOf (updateEntryPoint idx) q k))
        else (idx, .ok (searchResultsOf idx q k))) = (idx3, .ok rs) := h
    clear h
    by_cases hb : (if idx.entryPoint = "" then true
        else
          match lookupA idx.nodes idx.entryPoint with
          | none => true
          | some n => n.deleted) = true
    · rw [if_pos hb] at h'
      by_cases hv : ((idx.nodes.filter fun p => ¬p.2.deleted).length) = 0
      · rw [if_pos hv] at h'
        exact absurd (congrArg Prod.snd h') (by simp)
      rw [if_neg hv] at h'
      by_cases he : (updateEntryPoint idx).entryPoint = ""
      · rw [if_pos he] at h'
        exact absurd (congrArg Prod.snd h') (by simp)
      · rw [if_neg he] at h'
        have hrs : searchResultsOf (updateEntryPoint idx) q k = rs := by
          have h3 := congrArg Prod.snd h'
          simpa using h3
        rw [← hrs]
        intro r hr
        have := searchResultsOf_live (updateEntryPoint idx) q k r hr
        rwa [updateEntryPoint_nodes] at this
    · rw [if_neg hb] at h'
      have hrs : searchResultsOf idx q k = rs := by
        have h3 := congrArg Prod.snd h'
        simpa using h3
      rw [← hrs]
      exact searchResultsOf_live idx q k

/-- C4.  Deleting a present, not-yet-tombstoned id `x` succeeds; the
node stays in the table with its tombstone set (no physical removal),
`Size` decreases by exactly one, every subsequent `Search` result list
is free of `x`, and when `x` was the entry point a new entry point is
chosen among the highest-level non-tombstoned nodes (or cleared when
none remain).  Hypotheses: well-formed node table (distinct, non-empty
ids). -/
theorem C4_delete_then_search (idx : HNSWIndex V) (x : String) (nx : Node V)
    (hnd : (idx.nodes.map Prod.fst).Nodup)
    (hne : "" ∉ idx.nodes.map Prod.fst)
    (hx : lookupA idx.nodes x = some nx)
    (hlive : nx.deleted = false) :
    ∃ idx2, deleteOp idx x = .ok idx2 ∧
      lookupA idx2.nodes x = some { nx with deleted := true } ∧
      idx2.nodes.map Prod.fst = idx.nodes.map Prod.fst ∧
      sizeOp idx2 + 1 = sizeOp idx ∧
      (∀ (q : V) (k : Int) (idx3 : HNSWIndex V) rs,
        searchOp idx2 q k = (idx3, .ok rs) → ∀ r ∈ rs, r.id ≠ x) ∧
      (idx.entryPoint = x →
        (idx2.entryPoint = "" → ∀ p ∈ idx2.nodes, p.2.deleted = true) ∧
        (idx2.entryPoint ≠ "" →
          ∃ n, lookupA idx2.nodes idx2.entryPoint = some n ∧
            n.deleted = false ∧ n.level = idx2.currentMaxLevel ∧
            ∀ p ∈ idx2.nodes, p.2.deleted = false → p.2.level ≤ n.level)) := by
  have hnodes1 : ∀ idx2 : HNSWIndex V,
      idx2.nodes = upsertA idx.nodes x { nx with deleted := true } →
      lookupA idx2.nodes x = some { nx with deleted := true } ∧
      idx2.nodes.map Prod.fst = idx.nodes.map Prod.fst ∧
      sizeOp idx2 + 1 = sizeOp idx ∧
      (∀ (q : V) (k : Int) (idx3 : HNSWIndex V) rs,
        searchOp idx2 q k = (idx3, .ok rs) → ∀ r ∈ rs, r.id ≠ x) := by
    intro idx2 h2
    refine ⟨by rw [h2]; exact lookupA_upsertA_self _ _ _,
      by rw [h2]; exact upsertA_map_fst_of_mem _ _ _ _ hx, ?_, ?_⟩
    · unfold sizeOp
      rw [h2]
      exact filter_upsert_dead_length idx.nodes x nx hx hlive
    · intro q k idx3 rs hs r hr hrx
      obtain ⟨n, hlook, hndel⟩ := searchOp_results_live idx2 q k idx3 rs hs r hr
      rw [hrx, h2, lookupA_upsertA_self] at hlook
      cases hlook
      simp at hndel
  have hdel : deleteOp idx x =
      if idx.entryPoint = x then
        .ok (updateEntryPoint
          { idx with nodes := upsertA idx.nodes x { nx with deleted := true } })
      else
        .ok { idx with nodes := upsertA idx.nodes x { nx with deleted := true } } := by
    unfold deleteOp
    rw [hx]
  rw [hdel]
  by_cases hep : idx.entryPoint = x
  · rw [if_pos hep]
    refine ⟨_, rfl, ?_⟩
    set idx1 : HNSWIndex V :=
      { idx with nodes := upsertA idx.nodes x { nx with deleted := true } }
      with hidx1
    have hkeys : idx1.nodes.map Prod.fst = idx.nodes.map Prod.fst := by
      rw [hidx1]
      exact upsertA_map_fst_of_mem _ _ _ _ hx
    have hspec := updateEntryPoint_spec idx1
      (by rw [hkeys]; exact hnd) (by rw [hkeys]; exact hne)
    obtain ⟨ha, hb, hc, hd⟩ := hnodes1 (updateEntryPoint idx1)
      (by rw [updateEntryPoint_nodes])
    refine ⟨ha, hb, hc, hd, fun _ => ⟨?_, ?_⟩⟩
    · intro hcond p hp
      rw [updateEntryPoint_nodes] at hp
      exact hspec.1 hcond p hp
    · intro hcond
      obtain ⟨n, hl, hld, hlv, hmax⟩ := hspec.2 hcond
      refine ⟨n, by rw [updateEntryPoint_nodes]; exact hl, hld, hlv, ?_⟩
      intro p hp hpl
      rw [updateEntryPoint_nodes] at hp
      exact hmax p hp hpl
  · rw [if_neg hep]
    refine ⟨_, rfl, ?_⟩
    obtain ⟨ha, hb, hc, hd⟩ := hnodes1
      { idx with nodes := upsertA idx.nodes x { nx with deleted := true } } rfl
    exact ⟨ha, hb, hc, hd, fun hcon => absurd hcon hep⟩

/-- Concrete two-node index (entry point `b`) used to witness C4. -/
def c4wIdx : HNSWIndex ℚ :=
  ⟨[("a", ⟨1, [[]], 0, false⟩), ("b", ⟨2, [[]], 1, false⟩)], "b", 1, none,
   ⟨16, 200, 50, 1⟩⟩

/-- C4, witness: in the two-node index, node `a` is live with distinct
non-empty ids; deleting `a` tombstones it, keeps it in the table, drops
`Size` from 2 to 1, and no later search returns `a`. -/
theorem C4_delete_then_search_witness :
    (c4wIdx.nodes.map Prod.fst).Nodup ∧
    "" ∉ c4wIdx.nodes.map Prod.fst ∧
    lookupA c4wIdx.nodes "a" = some ⟨1, [[]], 0, false⟩ ∧
    (⟨1, [[]], 0, false⟩ : Node ℚ).deleted = false ∧
    (∃ idx2, deleteOp c4wIdx "a" = .ok idx2 ∧
      lookupA idx2.nodes "a" =
        some { (⟨1, [[]], 0, false⟩ : Node ℚ) with deleted := true } ∧
      idx2.nodes.map Prod.fst = c4wIdx.nodes.map Prod.fst ∧
      sizeOp idx2 + 1 = sizeOp c4wIdx ∧
      (∀ (q : ℚ) (k : Int) (idx3 : HNSWIndex ℚ) rs,
        searchOp idx2 q k = (idx3, .ok rs) → ∀ r ∈ rs, r.id ≠ "a") ∧
      (c4wIdx.entryPoint = "a" →
        (idx2.entryPoint = "" → ∀ p ∈ idx2.nodes, p.2.deleted = true) ∧
        (idx2.entryPoint ≠ "" →
          ∃ n, lookupA idx2.nodes idx2.entryPoint = some n ∧
            n.deleted = false ∧ n.level = idx2.currentMaxLevel ∧
            ∀ p ∈ idx2.nodes, p.2.deleted = false → p.2.level ≤ n.level))) :=
  ⟨by decide, by decide, rfl, rfl,
    C4_delete_then_search c4wIdx "a" ⟨1, [[]], 0, false⟩ (by decide) (by decide)
      rfl rfl⟩

/-- Five live level-0 nodes whose layer search distinguishes the
implemented algorithm (both queues bounded at `ef`) from the §4.5.4
frontier algorithm (candidates unbounded).  The metric returns the
stored value of its second argument, so each node's distance to any
query is its `vec` field: A↦5, B↦4, C↦4, D↦3, E↦0. -/
def c5Idx : HNSWIndex ℚ :=
  ⟨[("A", ⟨5, [[("B", 0), ("C", 0), ("D", 0)]], 0, false⟩),
    ("B", ⟨4, [[("A", 0), ("E", 0)]], 0, false⟩),
    ("C", ⟨4, [[("A", 0)]], 0, false⟩),
    ("D", ⟨3, [[("A", 0)]], 0, false⟩),
    ("E", ⟨0, [[("B", 0)]], 0, false⟩)],
   "A", 0, some (fun _ b => .ok b), ⟨2, 2, 2, 1⟩⟩

set_option maxRecDepth 4000

/-- C5, counterexample: on `c5Idx` with `ef = 2`, entry `A`, level 0,
the implemented layer search caps the candidates queue at `ef` too:
pushing B, C, D evicts B (distance 4, tied furthest) from candidates,
so B is never expanded and the best node E (distance 0, reachable only
through B) is lost — the code returns `[D(3), C(4)]`.  The §4.5.4
algorithm (candidates unbounded, only results bounded) expands B and
returns `[E(0), D(3)]`. -/
theorem C5_counterexample :
    searchLayerInternal c5Idx 0 "A" 2 0 = [("D", 3), ("C", 4)] ∧
    searchLayerSpec c5Idx 0 "A" 2 0 = [("E", 0), ("D", 3)] ∧
    searchLayerInternal c5Idx 0 "A" 2 0 ≠ searchLayerSpec c5Idx 0 "A" 2 0 := by
  decide

theorem scanIdx_lt (cmp : ℚ → ℚ → Bool) (t : List distItem) :
    ∀ i bestD best, best < i → scanIdx cmp t i bestD best < i + t.length := by
  induction t with
  | nil =>
    intro i bestD best h
    simp only [scanIdx, List.length_nil]
    omega
  | cons x t ih =>
    intro i bestD best h
    simp only [scanIdx, List.length_cons]
    by_cases hc : cmp x.distance bestD
    · rw [if_pos hc]
      have := ih (i + 1) x.distance i (by omega)
      omega
    · rw [if_neg hc]
      have := ih (i + 1) bestD best (by omega)
      omega

theorem findMaxIdx_lt (l : List distItem) (h : l ≠ []) :
    findMaxIdx l < l.length := by
  rcases l with _ | ⟨x, t⟩
  · exact absurd rfl h
  · have := scanIdx_lt (fun a b => a > b) t 1 x.distance 0 (by omega)
    simp only [findMaxIdx, List.length_cons]
    omega

theorem findMinIdx_lt (l : List distItem) (h : l ≠ []) :
    findMinIdx l < l.length := by
  rcases l with _ | ⟨x, t⟩
  · exact absurd rfl h
  · have := scanIdx_lt (fun a b => a < b) t 1 x.distance 0 (by omega)
    simp only [findMinIdx, List.length_cons]
    omega

theorem removeIdx_length (l : List distItem) (i : Nat) (h : i < l.length) :
    (removeIdx l i).length + 1 = l.length := by
  unfold removeIdx
  simp only [List.length_append, List.length_take, List.length_drop]
  omega

theorem removeIdx_subset (l : List distItem) (i : Nat) (x : distItem)
    (h : x ∈ removeIdx l i) : x ∈ l := by
  unfold removeIdx at h
  rcases List.mem_append.mp h with h | h
  · exact List.take_subset _ _ h
  · exact List.drop_subset _ _ h

theorem pushQ_maxSize (q : distQueue) (id : String) (d : ℚ) :
    (pushQ q id d).maxSize = q.maxSize := by
  unfold pushQ
  by_cases hc : q.maxSize > 0 ∧
      (q.items ++ [(⟨id, d⟩ : distItem)]).length > q.maxSize
  · rw [if_pos hc]
  · rw [if_neg hc]

theorem pushQ_length_le (q : distQueue) (id : String) (d : ℚ) (ef : Nat)
    (hms : q.maxSize = ef) (hef : 1 ≤ ef) (hlen : q.items.length ≤ ef) :
    (pushQ q id d).items.length ≤ ef := by
  unfold pushQ
  by_cases hc : q.maxSize > 0 ∧
      (q.items ++ [(⟨id, d⟩ : distItem)]).length > q.maxSize
  · rw [if_pos hc]
    have hmax : findMaxIdx (q.items ++ [(⟨id, d⟩ : distItem)]) <
        (q.items ++ [(⟨id, d⟩ : distItem)]).length := findMaxIdx_lt _ (by simp)
    have := removeIdx_length _ _ hmax
    show (removeIdx (q.items ++ [(⟨id, d⟩ : distItem)])
      (findMaxIdx (q.items ++ [(⟨id, d⟩ : distItem)]))).length ≤ ef
    simp only [List.length_append, List.length_cons, List.length_nil] at this
    omega
  · rw [if_neg hc]
    rw [hms] at hc
    simp only [List.length_append, List.length_cons, List.length_nil,
      gt_iff_lt, not_and, not_lt] at hc
    show (q.items ++ [(⟨id, d⟩ : distItem)]).length ≤ ef
    have := hc (by omega)
    simp only [List.length_append, List.length_cons, List.length_nil]
    omega

theorem pushQ_mem (q : distQueue) (id : String) (d : ℚ) (it : distItem)
    (h : it ∈ (pushQ q id d).items) : it ∈ q.items ∨ it = ⟨id, d⟩ := by
  unfold pushQ at h
  by_cases hc : q.maxSize > 0 ∧
      (q.items ++ [(⟨id, d⟩ : distItem)]).length > q.maxSize
  · rw [if_pos hc] at h
    have h2 : it ∈ removeIdx (q.items ++ [⟨id, d⟩])
        (findMaxIdx (q.items ++ [⟨id, d⟩])) := h
    have h3 := removeIdx_subset _ _ _ h2
    rcases List.mem_append.mp h3 with h4 | h4
    · exact Or.inl h4
    · simp at h4
      exact Or.inr (by cases it; simp_all)
  · rw [if_neg hc] at h
    have h2 : it ∈ q.items ++ [⟨id, d⟩] := h
    rcases List.mem_append.mp h2 with h4 | h4
    · exact Or.inl h4
    · simp at h4
      exact Or.inr (by cases it; simp_all)

theorem popQ_fst_mem (q : distQueue) (h : q.items ≠ []) :
    (popQ q).1 ∈ q.items := by
  unfold popQ
  rcases hq : q.items with _ | ⟨x, t⟩
  · exact absurd hq h
  · show (x :: t).getD (findMinIdx (x :: t)) ⟨"", 0⟩ ∈ x :: t
    have hlt : findMinIdx (x :: t) < (x :: t).length :=
      findMinIdx_lt _ (by simp)
    rw [List.getD_eq_getElem _ _ hlt]
    exact List.getElem_mem hlt

theorem popQ_snd_subset (q : distQueue) (it : distItem)
    (h : it ∈ (popQ q).2.items) : it ∈ q.items := by
  unfold popQ at h
  rcases hq : q.items with _ | ⟨x, t⟩
  · rw [hq] at h
    have h2 : it ∈ q.items := h
    rw [hq] at h2
    exact h2
  · rw [hq] at h
    have h2 : it ∈ removeIdx (x :: t) (findMinIdx (x :: t)) := h
    exact removeIdx_subset _ _ _ h2

theorem popQ_snd_length (q : distQueue) (h : q.items ≠ []) :
    (popQ q).2.items.length + 1 = q.items.length := by
  unfold popQ
  rcases hq : q.items with _ | ⟨x, t⟩
  · exact absurd hq h
  · exact removeIdx_length (x :: t) (findMinIdx (x :: t))
      (findMinIdx_lt _ (by simp))

theorem drainGo_subset (n : Nat) (q : distQueue) (it : distItem)
    (h : it ∈ drainGo n q) : it ∈ q.items := by
  induction n generalizing q with
  | zero => simp [drainGo] at h
  | succ n ih =>
    unfold drainGo at h
    by_cases he : q.items.isEmpty
    · rw [if_pos he] at h
      simp at h
    · rw [if_neg he] at h
      have h2 : it ∈ (popQ q).1 :: drainGo n (popQ q).2 := h
      rcases List.mem_cons.mp h2 with h3 | h3
      · rw [h3]
        exact popQ_fst_mem q (by simpa using he)
      · exact popQ_snd_subset q it (ih _ h3)

theorem drainGo_length (n : Nat) (q : distQueue) :
    (drainGo n q).length ≤ q.items.length := by
  induction n generalizing q with
  | zero => simp [drainGo]
  | succ n ih =>
    unfold drainGo
    by_cases he : q.items.isEmpty
    · rw [if_pos he]
      simp
    · rw [if_neg he]
      have hne : q.items ≠ [] := by simpa using he
      have hpop := popQ_snd_length q hne
      have hih := ih (popQ q).2
      show ((popQ q).1 :: drainGo n (popQ q).2).length ≤ q.items.length
      simp only [List.length_cons]
      omega

theorem insertPair_perm (x : String × ℚ) (l : List (String × ℚ)) :
    (insertPair x l).Perm (x :: l) := by
  induction l with
  | nil => simp [insertPair]
  | cons y t ih =>
    unfold insertPair
    by_cases hc : x.2 ≤ y.2
    · rw [if_pos hc]
    · rw [if_neg hc]
      exact (ih.cons y).trans (List.Perm.swap x y t)

theorem insertPair_sorted (x : String × ℚ) (l : List (String × ℚ))
    (h : List.Pairwise (fun a b => a.2 ≤ b.2) l) :
    List.Pairwise (fun a b => a.2 ≤ b.2) (insertPair x l) := by
  induction l with
  | nil => simp [insertPair]
  | cons y t ih =>
    unfold insertPair
    obtain ⟨hy, ht⟩ := List.pairwise_cons.mp h
    by_cases hc : x.2 ≤ y.2
    · rw [if_pos hc]
      refine List.pairwise_cons.mpr ⟨?_, h⟩
      intro z hz
      rcases List.mem_cons.mp hz with rfl | hz
      · exact hc
      · exact le_trans hc (hy z hz)
    · rw [if_neg hc]
      refine List.pairwise_cons.mpr ⟨?_, ih ht⟩
      intro z hz
      have h2 := (insertPair_perm x t).mem_iff.mp hz
      rcases List.mem_cons.mp h2 with rfl | hz2
      · exact le_of_lt (lt_of_not_le hc)
      · exact hy z hz2

theorem sortPairs_perm (l : List (String × ℚ)) : (sortPairs l).Perm l := by
  induction l with
  | nil => simp [sortPairs]
  | cons x t ih =>
    unfold sortPairs
    exact (insertPair_perm x (sortPairs t)).trans (ih.cons x)

theorem sortPairs_sorted (l : List (String × ℚ)) :
    List.Pairwise (fun a b => a.2 ≤ b.2) (sortPairs l) := by
  induction l with
  | nil => simp [sortPairs]
  | cons x t ih => exact insertPair_sorted x _ ih

/-- Invariant of the results queue of the implemented layer search:
capacity `ef`, at most `ef` items, every item a live stored node. -/
def RInv {V : Type} (idx : HNSWIndex V) (ef : Nat) (q : distQueue) : Prop :=
  q.maxSize = ef ∧ q.items.length ≤ ef ∧
    ∀ it ∈ q.items, ∃ n, lookupA idx.nodes it.id = some n ∧ n.deleted = false

theorem pushQ_RInv (idx : HNSWIndex V) (ef : Nat) (q : distQueue)
    (id : String) (d : ℚ) (hef : 1 ≤ ef) (h : RInv idx ef q)
    (hlive : ∃ n, lookupA idx.nodes id = some n ∧ n.deleted = false) :
    RInv idx ef (pushQ q id d) := by
  obtain ⟨hms, hlen, hmem⟩ := h
  refine ⟨(pushQ_maxSize q id d).trans hms,
    pushQ_length_le q id d ef hms hef hlen, ?_⟩
  intro it hit
  rcases pushQ_mem q id d it hit with h2 | h2
  · exact hmem it h2
  · rw [h2]
    exact hlive

theorem processNeighbors_RInv (idx : HNSWIndex V) (query : V) (ef : Nat)
    (nbrs : List (String × ℚ)) (hef : 1 ≤ ef) :
    ∀ visited cand results, RInv idx ef results →
      RInv idx ef
        (processNeighbors idx query ef nbrs visited cand results).2.2 := by
  induction nbrs with
  | nil =>
    intro visited cand results h
    exact h
  | cons nb rest ih =>
    intro visited cand results h
    obtain ⟨nid, nd0⟩ := nb
    simp only [processNeighbors]
    by_cases hv : nid ∈ visited
    · rw [if_pos hv]
      exact ih _ _ _ h
    · rw [if_neg hv]
      rcases hl : lookupA idx.nodes nid with _ | nn
      · simp only [hl]
        exact ih _ _ _ h
      · simp only [hl]
        by_cases hd : nn.deleted
        · rw [if_pos hd]
          exact ih _ _ _ h
        · rw [if_neg hd]
          rcases hdist : distOf idx query nn.vec with e | nd
          · simp only [hdist]
            exact ih _ _ _ h
          · simp only [hdist]
            by_cases hpush : results.items.length < ef ∨ nd < maxDistQ results
            · rw [if_pos hpush]
              exact ih _ _ _
                (pushQ_RInv idx ef results nid nd hef h
                  ⟨nn, hl, by simpa using hd⟩)
            · rw [if_neg hpush]
              exact ih _ _ _ h

theorem searchLoop_RInv (idx : HNSWIndex V) (query : V) (ef level : Nat)
    (hef : 1 ≤ ef) :
    ∀ fuel visited cand results, RInv idx ef results →
      RInv idx ef (searchLoop idx query ef level fuel visited cand results) := by
  intro fuel
  induction fuel with
  | zero =>
    intro visited cand results h
    exact h
  | succ fuel ih =>
    intro visited cand results h
    simp only [searchLoop]
    by_cases he : cand.items.isEmpty
    · rw [if_pos he]
      exact h
    · rw [if_neg he]
      rcases hpop : popQ cand with ⟨current, cand2⟩
      simp only [hpop]
      by_cases hmx : maxDistQ results < current.distance
      · rw [if_pos hmx]
        exact h
      · rw [if_neg hmx]
        rcases hl : lookupA idx.nodes current.id with _ | cn
        · simp only [hl]
          exact ih _ _ _ h
        · simp only [hl]
          by_cases hdl : cn.deleted ∨ level > cn.level
          · rw [if_pos hdl]
            exact ih _ _ _ h
          · rw [if_neg hdl]
            rcases hpn : processNeighbors idx query ef (cn.edges.getD level [])
                visited cand2 results with ⟨v2, c3, r3⟩
            simp only [hpn]
            have h3 : RInv idx ef r3 := by
              have h4 := processNeighbors_RInv idx query ef
                (cn.edges.getD level []) hef visited cand2 results h
              rw [hpn] at h4
              exact h4
            exact ih _ _ _ h3

/-- C5, amended: in the implemented layer search both queues are
bounded at `ef` (the counterexample shows candidates can evict a
frontier node the §4.5.4 algorithm would expand); what remains true of
the returned list is proved here: it holds at most `ef` entries, it is
sorted ascending by distance, and every returned id is a live
(non-tombstoned) node of the table.  Hypotheses: `1 ≤ ef` and distinct
node ids. -/
theorem C5_searchLayer_amended (idx : HNSWIndex V) (query : V)
    (entryID : String) (ef level : Nat) (hef : 1 ≤ ef)
    (hnd : (idx.nodes.map Prod.fst).Nodup) :
    (searchLayerInternal idx query entryID ef level).length ≤ ef ∧
    List.Pairwise (fun a b => a.2 ≤ b.2)
      (searchLayerInternal idx query entryID ef level) ∧
    ∀ p ∈ searchLayerInternal idx query entryID ef level,
      ∃ n, lookupA idx.nodes p.1 = some n ∧ n.deleted = false := by
  unfold searchLayerInternal
  by_cases hemp : idx.nodes.isEmpty
  · rw [if_pos hemp]
    exact ⟨by simp, by simp, by simp⟩
  · rw [if_neg hemp]
    have hent : ∀ eid en,
        (match lookupA idx.nodes entryID with
          | some n => if n.deleted then firstLive idx.nodes
              else some (entryID, n)
          | none => firstLive idx.nodes) = some (eid, en) →
        ∃ n, lookupA idx.nodes eid = some n ∧ n.deleted = false := by
      intro eid en h
      rcases hl : lookupA idx.nodes entryID with _ | n
      · rw [hl] at h
        have h2 : firstLive idx.nodes = some (eid, en) := h
        obtain ⟨hm, hdel⟩ := (firstLive_spec idx.nodes).1 _ h2
        exact ⟨en, mem_lookupA _ _ _ hm hnd, hdel⟩
      · rw [hl] at h
        have h2 : (if n.deleted then firstLive idx.nodes
            else some (entryID, n)) = some (eid, en) := h
        by_cases hd : n.deleted
        · rw [if_pos hd] at h2
          obtain ⟨hm, hdel⟩ := (firstLive_spec idx.nodes).1 _ h2
          exact ⟨en, mem_lookupA _ _ _ hm hnd, hdel⟩
        · rw [if_neg hd] at h2
          obtain ⟨h4, h5⟩ : entryID = eid ∧ n = en := by
            have h3 := Option.some.inj h2
            exact ⟨congrArg Prod.fst h3, congrArg Prod.snd h3⟩
          subst h4
          subst h5
          exact ⟨n, hl, by simpa using hd⟩
    rcases hentv : (match lookupA idx.nodes entryID with
        | some n => if n.deleted then firstLive idx.nodes
            else some (entryID, n)
        | none => firstLive idx.nodes) with _ | ⟨eid, en⟩
    · simp only [hentv]
      exact ⟨by simp, by simp, by simp⟩
    · simp only [hentv]
      rcases hdist : distOf idx query en.vec with e | ed
      · simp only [hdist]
        exact ⟨by simp, by simp, by simp⟩
      · simp only [hdist]
        have hlive := hent eid en hentv
        have hR : RInv idx ef (pushQ ⟨[], ef⟩ eid ed) :=
          pushQ_RInv idx ef ⟨[], ef⟩ eid ed hef
            ⟨rfl, Nat.zero_le ef, by simp⟩ hlive
        obtain ⟨hms, hlen, hmem⟩ := searchLoop_RInv idx query ef level hef
          (idx.nodes.length + 2) [eid] (pushQ ⟨[], ef⟩ eid ed)
          (pushQ ⟨[], ef⟩ eid ed) hR
        refine ⟨?_, sortPairs_sorted _, ?_⟩
        · have h1 := (sortPairs_perm
            (((drainGo (searchLoop idx query ef level (idx.nodes.length + 2)
                [eid] (pushQ ⟨[], ef⟩ eid ed)
                (pushQ ⟨[], ef⟩ eid ed)).items.length
              (searchLoop idx query ef level (idx.nodes.length + 2)
                [eid] (pushQ ⟨[], ef⟩ eid ed)
                (pushQ ⟨[], ef⟩ eid ed))).map
              fun it => (it.id, it.distance)))).length_eq
          rw [h1, List.length_map]
          exact le_trans (drainGo_length _ _) hlen
        · intro p hp
          have h2 := (sortPairs_perm _).mem_iff.mp hp
          obtain ⟨it, hit, hfp⟩ := List.mem_map.mp h2
          have h3 := hmem it (drainGo_subset _ _ _ hit)
          rw [← hfp]
          exact h3

/-- C5 amended, witness: the amended theorem applied to `c5Idx` with
`ef = 2`: the returned list has at most 2 sorted entries, all live
stored nodes. -/
theorem C5_searchLayer_amended_witness :
    1 ≤ 2 ∧ (c5Idx.nodes.map Prod.fst).Nodup ∧
    ((searchLayerInternal c5Idx 0 "A" 2 0).length ≤ 2 ∧
     List.Pairwise (fun a b => a.2 ≤ b.2)
       (searchLayerInternal c5Idx 0 "A" 2 0) ∧
     ∀ p ∈ searchLayerInternal c5Idx 0 "A" 2 0,
       ∃ n, lookupA c5Idx.nodes p.1 = some n ∧ n.deleted = false) :=
  ⟨by decide, by decide,
    C5_searchLayer_amended c5Idx 0 "A" 2 0 (by decide) (by decide)⟩

/-- Well-formed node table: distinct keys, and no empty-string key (Go
uses `""` as the entry-point sentinel). -/
def WFIdx {V : Type} (idx : HNSWIndex V) : Prop :=
  (idx.nodes.map Prod.fst).Nodup ∧ "" ∉ idx.nodes.map Prod.fst

/-- The entry-point invariant: a non-empty entry point names a live
node of level `currentMaxLevel`; an empty entry point means every node
is tombstoned. -/
def EPInv {V : Type} (idx : HNSWIndex V) : Prop :=
  (idx.entryPoint ≠ "" →
    ∃ n, lookupA idx.nodes idx.entryPoint = some n ∧ n.deleted = false ∧
      n.level = idx.currentMaxLevel) ∧
  (idx.entryPoint = "" → ∀ p ∈ idx.nodes, p.2.deleted = true)

/-- `b` differs from `a` at most in node edges: entry point, max level
and the key list are unchanged, and every looked-up node keeps its
level and tombstone flag. -/
def EdgesOnly {V : Type} (a b : HNSWIndex V) : Prop :=
  b.entryPoint = a.entryPoint ∧ b.currentMaxLevel = a.currentMaxLevel ∧
  b.nodes.map Prod.fst = a.nodes.map Prod.fst ∧
  ∀ id n, lookupA a.nodes id = some n →
    ∃ n', lookupA b.nodes id = some n' ∧ n'.level = n.level ∧
      n'.deleted = n.deleted

theorem edgesOnly_refl (a : HNSWIndex V) : EdgesOnly a a :=
  ⟨rfl, rfl, rfl, fun _ n h => ⟨n, h, rfl, rfl⟩⟩

theorem edgesOnly_trans {a b c : HNSWIndex V} (h1 : EdgesOnly a b)
    (h2 : EdgesOnly b c) : EdgesOnly a c := by
  obtain ⟨e1, c1, k1, f1⟩ := h1
  obtain ⟨e2, c2, k2, f2⟩ := h2
  refine ⟨e2.trans e1, c2.trans c1, k2.trans k1, ?_⟩
  intro id n h
  obtain ⟨n', hn', hl', hd'⟩ := f1 id n h
  obtain ⟨n'', hn'', hl'', hd''⟩ := f2 id n' hn'
  exact ⟨n'', hn'', hl''.trans hl', hd''.trans hd'⟩

theorem upsertA_mem {A : Type} (l : List (String × A)) (k : String) (v : A)
    (p : String × A) (h : p ∈ upsertA l k v) : p ∈ l ∨ p = (k, v) := by
  induction l with
  | nil =>
    simp [upsertA] at h
    exact Or.inr h
  | cons q t ih =>
    simp only [upsertA] at h
    by_cases hq : q.1 = k
    · rw [if_pos (by cases q; simpa using hq)] at h
      rcases List.mem_cons.mp h with h2 | h2
      · exact Or.inr h2
      · exact Or.inl (List.mem_cons_of_mem _ h2)
    · rw [if_neg (by cases q; simpa using hq)] at h
      rcases List.mem_cons.mp h with h2 | h2
      · exact Or.inl (by rw [h2]; exact List.mem_cons_self _ _)
      · rcases ih h2 with h3 | h3
        · exact Or.inl (List.mem_cons_of_mem _ h3)
        · exact Or.inr h3

theorem edgesOnly_upsert (idx : HNSWIndex V) (x : String) (n n' : Node V)
    (h : lookupA idx.nodes x = some n) (hl : n'.level = n.level)
    (hd : n'.deleted = n.deleted) :
    EdgesOnly idx { idx with nodes := upsertA idx.nodes x n' } := by
  unfold EdgesOnly
  refine ⟨rfl, rfl, upsertA_map_fst_of_mem _ _ _ _ h, ?_⟩
  intro id m hm
  by_cases hx : id = x
  · subst hx
    have hmn : m = n := by
      rw [h] at hm
      exact (Option.some.inj hm).symm
    refine ⟨n', ?_, by rw [hl, hmn], by rw [hd, hmn]⟩
    show lookupA (upsertA idx.nodes id n') id = some n'
    exact lookupA_upsertA_self _ _ _
  · refine ⟨m, ?_, rfl, rfl⟩
    show lookupA (upsertA idx.nodes x n') id = some m
    rw [lookupA_upsertA_ne _ _ _ _ hx]
    exact hm

theorem edgesOnly_setEdge (idx : HNSWIndex V) (nodeId : String)
    (level : Nat) (nbrId : String) (d : ℚ) :
    EdgesOnly idx (setEdge idx nodeId level nbrId d) := by
  unfold setEdge
  rcases h : lookupA idx.nodes nodeId with _ | n
  · exact edgesOnly_refl idx
  · exact edgesOnly_upsert idx nodeId n _ h rfl rfl

theorem edgesOnly_connectStep (idp : String) (level m : Nat) :
    ∀ (acc : HNSWIndex V) (nbr : String × ℚ),
      EdgesOnly acc (connectStep idp level m acc nbr) := by
  intro acc nbr
  have hstep : EdgesOnly acc (setEdge acc idp level nbr.1 nbr.2) :=
    edgesOnly_setEdge acc idp level nbr.1 nbr.2
  simp only [connectStep]
  rcases h2 : lookupA (setEdge acc idp level nbr.1 nbr.2).nodes nbr.1
    with _ | nn
  · exact hstep
  · by_cases hdel : nn.deleted
    · show EdgesOnly acc
        (if nn.deleted = true then setEdge acc idp level nbr.1 nbr.2 else _)
      rw [if_pos hdel]
      exact hstep
    · show EdgesOnly acc
        (if nn.deleted = true then setEdge acc idp level nbr.1 nbr.2 else _)
      rw [if_neg hdel]
      have hstep2 : EdgesOnly acc
          (setEdge (setEdge acc idp level nbr.1 nbr.2) nbr.1 level idp
            nbr.2) :=
        edgesOnly_trans hstep (edgesOnly_setEdge _ _ _ _ _)
      by_cases hlev : level ≤ nn.level
      · show EdgesOnly acc (if level ≤ nn.level then _ else _)
        rw [if_pos hlev]
        rcases h3 : lookupA (setEdge (setEdge acc idp level nbr.1 nbr.2)
            nbr.1 level idp nbr.2).nodes nbr.1 with _ | n2
        · exact hstep2
        · by_cases hbig : (n2.edges.getD level []).length > m
          · show EdgesOnly acc
              (if (n2.edges.getD level []).length > m then _ else _)
            rw [if_pos hbig]
            exact edgesOnly_trans hstep2
              (edgesOnly_upsert _ _ n2 _ h3 rfl rfl)
          · show EdgesOnly acc
              (if (n2.edges.getD level []).length > m then _ else _)
            rw [if_neg hbig]
            exact hstep2
      · show EdgesOnly acc (if level ≤ nn.level then _ else _)
        rw [if_neg hlev]
        exact hstep

theorem edgesOnly_foldl {α : Type} (f : HNSWIndex V → α → HNSWIndex V)
    (hf : ∀ acc x, EdgesOnly acc (f acc x)) :
    ∀ (l : List α) (idx : HNSWIndex V), EdgesOnly idx (l.foldl f idx) := by
  intro l
  induction l with
  | nil =>
    intro idx
    exact edgesOnly_refl idx
  | cons x t ih =>
    intro idx
    simp only [List.foldl_cons]
    exact edgesOnly_trans (hf idx x) (ih (f idx x))

theorem edgesOnly_connectNeighbors (idx : HNSWIndex V) (id : String)
    (nbrs : List (String × ℚ)) (level m : Nat) :
    EdgesOnly idx (connectNeighbors idx id nbrs level m) :=
  edgesOnly_foldl (connectStep id level m)
    (edgesOnly_connectStep id level m) nbrs idx

theorem edgesOnly_connectLevels :
    ∀ (l : Nat) (idx : HNSWIndex V) (id : String) (vec : V) (ep : String),
      EdgesOnly idx (connectLevels l idx id vec ep) := by
  intro l
  induction l with
  | zero =>
    intro idx id vec ep
    exact edgesOnly_connectNeighbors _ _ _ _ _
  | succ l2 ih =>
    intro idx id vec ep
    simp only [connectLevels]
    exact edgesOnly_trans (edgesOnly_connectNeighbors _ _ _ _ _)
      (ih _ _ _ _)

theorem WF_of_edgesOnly (a b : HNSWIndex V) (h : EdgesOnly a b)
    (hwf : WFIdx a) : WFIdx b := by
  unfold WFIdx
  rw [h.2.2.1]
  exact hwf

theorem EPInv_of_edgesOnly (a b : HNSWIndex V) (h : EdgesOnly a b)
    (hndb : (b.nodes.map Prod.fst).Nodup) (hinv : EPInv a) : EPInv b := by
  obtain ⟨hep, hcml, hkeys, hfwd⟩ := h
  obtain ⟨h1, h2⟩ := hinv
  unfold EPInv
  constructor
  · intro hne'
    obtain ⟨n, hn, hd, hl⟩ := h1 (by rwa [hep] at hne')
    obtain ⟨n', hn', hl', hd'⟩ := hfwd _ _ hn
    refine ⟨n', ?_, ?_, ?_⟩
    · rw [hep]
      exact hn'
    · rw [hd', hd]
    · rw [hl', hl, ← hcml]
  · intro hb p hp
    have hpk : p.1 ∈ a.nodes.map Prod.fst := by
      rw [← hkeys]
      exact List.mem_map_of_mem Prod.fst hp
    rcases hla : lookupA a.nodes p.1 with _ | m
    · exact absurd ((lookupA_eq_none _ _).mp hla) (by simpa using hpk)
    · obtain ⟨m', hm', _, hmd⟩ := hfwd _ _ hla
      have hlp : lookupA b.nodes p.1 = some p.2 :=
        mem_lookupA _ p.1 p.2 hp hndb
      have hpm : p.2 = m' := by
        rw [hlp] at hm'
        exact Option.some.inj hm' 
      rw [hpm, hmd]
      exact h2 (by rwa [hep] at hb) (p.1, m) (lookupA_mem _ _ _ hla)

theorem connectLevels_INV (l : Nat) (idx2 : HNSWIndex V) (id : String)
    (vec : V) (ep : String) (hwf : WFIdx idx2) (hinv : EPInv idx2) :
    WFIdx (connectLevels l idx2 id vec ep) ∧
    EPInv (connectLevels l idx2 id vec ep) ∧
    (connectLevels l idx2 id vec ep).nodes.map Prod.fst =
      idx2.nodes.map Prod.fst := by
  have h := edgesOnly_connectLevels l idx2 id vec ep
  have hwf2 := WF_of_edgesOnly _ _ h hwf
  exact ⟨hwf2, EPInv_of_edgesOnly _ _ h hwf2.1 hinv, h.2.2.1⟩

theorem addInternal_spec (idx : HNSWIndex V) (id : String) (vec : V)
    (nodeLevel : Nat) (hid : id ≠ "")
    (hfresh : lookupA idx.nodes id = none)
    (hwf : WFIdx idx) (hinv : EPInv idx) :
    (WFIdx (addInternal idx id vec nodeLevel) ∧
     EPInv (addInternal idx id vec nodeLevel)) ∧
    (addInternal idx id vec nodeLevel).nodes.map Prod.fst =
      idx.nodes.map Prod.fst ++ [id] := by
  obtain ⟨hnd, hne⟩ := hwf
  have hk1 : (upsertA idx.nodes id
      (⟨vec, List.replicate (nodeLevel + 1) [], nodeLevel, false⟩ :
        Node V)).map Prod.fst = idx.nodes.map Prod.fst ++ [id] :=
    upsertA_map_fst_of_fresh _ _ _ hfresh
  have hid2 : id ∉ idx.nodes.map Prod.fst := (lookupA_eq_none _ _).mp hfresh
  have hndk : ((upsertA idx.nodes id
      (⟨vec, List.replicate (nodeLevel + 1) [], nodeLevel, false⟩ :
        Node V)).map Prod.fst).Nodup := by
    rw [hk1]
    simp [List.nodup_append, hnd, hid2]
  have hnek : "" ∉ (upsertA idx.nodes id
      (⟨vec, List.replicate (nodeLevel + 1) [], nodeLevel, false⟩ :
        Node V)).map Prod.fst := by
    rw [hk1]
    intro hc
    rcases List.mem_append.mp hc with hc | hc
    · exact hne hc
    · simp at hc
      exact hid hc.symm
  unfold addInternal
  simp only []
  by_cases hep : idx.entryPoint = ""
  · rw [if_pos hep]
    refine ⟨⟨⟨hndk, hnek⟩, ?_, ?_⟩, hk1⟩
    · intro _
      exact ⟨⟨vec, List.replicate (nodeLevel + 1) [], nodeLevel, false⟩,
        lookupA_upsertA_self _ _ _, rfl, rfl⟩
    · intro hc
      exact absurd hc hid
  · rw [if_neg hep]
    by_cases hlvl : nodeLevel > idx.currentMaxLevel
    · rw [if_pos hlvl]
      have hwfX : WFIdx (V := V)
          ⟨upsertA idx.nodes id
            ⟨vec, List.replicate (nodeLevel + 1) [], nodeLevel, false⟩,
           id, nodeLevel, idx.metric, idx.config⟩ := ⟨hndk, hnek⟩
      have hinvX : EPInv (V := V)
          ⟨upsertA idx.nodes id
            ⟨vec, List.replicate (nodeLevel + 1) [], nodeLevel, false⟩,
           id, nodeLevel, idx.metric, idx.config⟩ := by
        constructor
        · intro _
          exact ⟨⟨vec, List.replicate (nodeLevel + 1) [], nodeLevel, false⟩,
            lookupA_upsertA_self _ _ _, rfl, rfl⟩
        · intro hc
          exact absurd hc hid
      have hmain := connectLevels_INV (min nodeLevel nodeLevel)
        ⟨upsertA idx.nodes id
          ⟨vec, List.replicate (nodeLevel + 1) [], nodeLevel, false⟩,
         id, nodeLevel, idx.metric, idx.config⟩ id vec idx.entryPoint
        hwfX hinvX
      exact ⟨⟨hmain.1, hmain.2.1⟩, hmain.2.2.trans hk1⟩
    · rw [if_neg hlvl]
      have hepk : idx.entryPoint ∈ idx.nodes.map Prod.fst := by
        obtain ⟨n, hn, _, _⟩ := hinv.1 hep
        exact List.mem_map_of_mem Prod.fst (lookupA_mem _ _ _ hn)
      have hepid : idx.entryPoint ≠ id := fun hc =>
        hid2 (hc ▸ hepk)
      have hwfY : WFIdx (V := V)
          ⟨upsertA idx.nodes id
            ⟨vec, List.replicate (nodeLevel + 1) [], nodeLevel, false⟩,
           idx.entryPoint, idx.currentMaxLevel, idx.metric, idx.config⟩ :=
        ⟨hndk, hnek⟩
      have hinvY : EPInv (V := V)
          ⟨upsertA idx.nodes id
            ⟨vec, List.replicate (nodeLevel + 1) [], nodeLevel, false⟩,
           idx.entryPoint, idx.currentMaxLevel, idx.metric, idx.config⟩ := by
        constructor
        · intro _
          obtain ⟨n, hn, hd, hl⟩ := hinv.1 hep
          refine ⟨n, ?_, hd, hl⟩
          show lookupA (upsertA idx.nodes id
            ⟨vec, List.replicate (nodeLevel + 1) [], nodeLevel, false⟩)
            idx.entryPoint = some n
          rw [lookupA_upsertA_ne _ _ _ _ hepid]
          exact hn
        · intro hc
          exact absurd hc hep
      have hmain := connectLevels_INV (min nodeLevel idx.currentMaxLevel)
        ⟨upsertA idx.nodes id
          ⟨vec, List.replicate (nodeLevel + 1) [], nodeLevel, false⟩,
         idx.entryPoint, idx.currentMaxLevel, idx.metric, idx.config⟩
        id vec idx.entryPoint hwfY hinvY
      exact ⟨⟨hmain.1, hmain.2.1⟩, hmain.2.2.trans hk1⟩

theorem deleteOp_INV (idx : HNSWIndex V) (x : String) (idx2 : HNSWIndex V)
    (hwf : WFIdx idx) (hinv : EPInv idx)
    (h : deleteOp idx x = .ok idx2) : WFIdx idx2 ∧ EPInv idx2 := by
  unfold deleteOp at h
  rcases hx : lookupA idx.nodes x with _ | node
  · rw [hx] at h
    exact absurd h (by simp)
  · rw [hx] at h
    have h' : (if idx.entryPoint = x then
        (.ok (updateEntryPoint
          { idx with
            nodes := upsertA idx.nodes x { node with deleted := true } }) :
          Except IndexErr (HNSWIndex V))
      else .ok { idx with
        nodes := upsertA idx.nodes x { node with deleted := true } }) =
        .ok idx2 := h
    obtain ⟨hnd, hne⟩ := hwf
    have hkeys1 : (upsertA idx.nodes x
        { node with deleted := true }).map Prod.fst =
        idx.nodes.map Prod.fst := upsertA_map_fst_of_mem _ _ _ _ hx
    have hnd1 : ((upsertA idx.nodes x
        { node with deleted := true }).map Prod.fst).Nodup := by
      rw [hkeys1]
      exact hnd
    have hne1 : "" ∉ (upsertA idx.nodes x
        { node with deleted := true }).map Prod.fst := by
      rw [hkeys1]
      exact hne
    by_cases hep : idx.entryPoint = x
    · rw [if_pos hep] at h'
      have h2 := Except.ok.inj h'
      subst h2
      have hspec := updateEntryPoint_spec
        { idx with nodes := upsertA idx.nodes x { node with deleted := true } }
        hnd1 hne1
      refine ⟨⟨?_, ?_⟩, ?_, ?_⟩
      · rw [updateEntryPoint_nodes]
        exact hnd1
      · rw [updateEntryPoint_nodes]
        exact hne1
      · intro hne2
        obtain ⟨n, hn, hd, hl, _⟩ := hspec.2 hne2
        refine ⟨n, ?_, hd, hl⟩
        rw [updateEntryPoint_nodes]
        exact hn
      · intro hz p hp
        rw [updateEntryPoint_nodes] at hp
        exact hspec.1 hz p hp
    · rw [if_neg hep] at h'
      have h2 := Except.ok.inj h'
      subst h2
      refine ⟨⟨hnd1, hne1⟩, ?_, ?_⟩
      · intro hne2
        obtain ⟨n, hn, hd, hl⟩ := hinv.1 hne2
        refine ⟨n, ?_, hd, hl⟩
        show lookupA (upsertA idx.nodes x { node with deleted := true })
          idx.entryPoint = some n
        rw [lookupA_upsertA_ne _ _ _ _ hep]
        exact hn
      · intro hz p hp
        rcases upsertA_mem _ _ _ _ hp with hmem | hpe
        · exact hinv.2 hz p hmem
        · rw [hpe]

theorem foldAdd_INV (input : List (String × V × Nat)) :
    ∀ acc : HNSWIndex V, WFIdx acc → EPInv acc →
      (∀ p ∈ input, p.1 ≠ "" ∧ p.1 ∉ acc.nodes.map Prod.fst) →
      (input.map Prod.fst).Nodup →
      WFIdx (input.foldl (fun a p => addInternal a p.1 p.2.1 p.2.2) acc) ∧
      EPInv (input.foldl (fun a p => addInternal a p.1 p.2.1 p.2.2) acc) := by
  induction input with
  | nil =>
    intro acc hwf hinv _ _
    exact ⟨hwf, hinv⟩
  | cons p t ih =>
    intro acc hwf hinv hfresh hnd
    simp only [List.foldl_cons]
    obtain ⟨hp1, hp2⟩ := hfresh p (List.mem_cons_self _ _)
    have hlook : lookupA acc.nodes p.1 = none := (lookupA_eq_none _ _).mpr hp2
    obtain ⟨⟨hwf2, hinv2⟩, hkeys2⟩ :=
      addInternal_spec acc p.1 p.2.1 p.2.2 hp1 hlook hwf hinv
    have hnd' : (p.1 :: t.map Prod.fst).Nodup := by simpa using hnd
    refine ih _ hwf2 hinv2 ?_ (List.Nodup.of_cons hnd)
    intro q hq
    obtain ⟨hq1, hq2⟩ := hfresh q (List.mem_cons_of_mem _ hq)
    refine ⟨hq1, ?_⟩
    rw [hkeys2]
    intro hc
    rcases List.mem_append.mp hc with hc | hc
    · exact hq2 hc
    · simp at hc
      have hpq : p.1 ∈ t.map Prod.fst := hc ▸ List.mem_map_of_mem Prod.fst hq
      exact (List.nodup_cons.mp hnd').1 hpq

theorem buildOp_INV (idx : HNSWIndex V) (input : List (String × V × Nat))
    (ml : Nat) (hnd : (input.map Prod.fst).Nodup)
    (hids : ∀ p ∈ input, p.1 ≠ "") :
    WFIdx (buildOp idx input ml) ∧ EPInv (buildOp idx input ml) := by
  unfold buildOp
  simp only []
  exact foldAdd_INV input _ ⟨by simp, by simp⟩
    ⟨fun hc => absurd rfl hc, fun _ p hp => by simp at hp⟩
    (fun p hp => ⟨hids p hp, by simp⟩) hnd

/-- An index operation of the claim's sequences; RNG levels are
explicit (`add`'s `level`; `build` pairs each input vector with its
level, `mlCalc` standing for the computed `maxLevel`). -/
inductive HOp (V : Type) where
  | add (id : String) (vec : V) (level : Nat)
  | del (id : String)
  | build (input : List (String × V × Nat)) (mlCalc : Nat)

/-- Side conditions of the claim: ids non-empty, build inputs with
unique ids. -/
def opOK {V : Type} : HOp V → Prop
  | .add id _ _ => id ≠ ""
  | .del _ => True
  | .build input _ =>
    (input.map Prod.fst).Nodup ∧ ∀ p ∈ input, p.1 ≠ ""

/-- Apply one operation; a failed `Add`/`Delete` (duplicate or missing
id) leaves the index unchanged, as the Go methods return early on
error. -/
def runOp {V : Type} (idx : HNSWIndex V) : HOp V → HNSWIndex V
  | .add id vec level =>
    match addOp idx id vec level with
    | .ok idx2 => idx2
    | .error _ => idx
  | .del id =>
    match deleteOp idx id with
    | .ok idx2 => idx2
    | .error _ => idx
  | .build input ml => buildOp idx input ml

/-- Apply a sequence of operations. -/
def runOps {V : Type} (idx : HNSWIndex V) (ops : List (HOp V)) :
    HNSWIndex V :=
  ops.foldl runOp idx

theorem runOp_INV (idx : HNSWIndex V) (op : HOp V) (hok : opOK op)
    (hwf : WFIdx idx) (hinv : EPInv idx) :
    WFIdx (runOp idx op) ∧ EPInv (runOp idx op) := by
  cases op with
  | add id vec level =>
    simp only [runOp]
    rcases ha : addOp idx id vec level with e | idx2
    · exact ⟨hwf, hinv⟩
    · unfold addOp at ha
      rcases hl : lookupA idx.nodes id with _ | n
      · rw [hl] at ha
        have ha2 : Except.ok (addInternal idx id vec level) =
            Except.ok idx2 := ha
        have h3 := Except.ok.inj ha2
        subst h3
        exact (addInternal_spec idx id vec level hok hl hwf hinv).1
      · rw [hl] at ha
        exact absurd ha (by simp)
  | del id =>
    simp only [runOp]
    rcases hd : deleteOp idx id with e | idx2
    · exact ⟨hwf, hinv⟩
    · exact deleteOp_INV idx id idx2 hwf hinv hd
  | build input ml =>
    simp only [runOp]
    exact buildOp_INV idx input ml hok.1 hok.2

theorem runOps_INV (ops : List (HOp V)) :
    ∀ idx, (∀ op ∈ ops, opOK op) → WFIdx idx → EPInv idx →
      WFIdx (runOps idx ops) ∧ EPInv (runOps idx ops) := by
  induction ops with
  | nil =>
    intro idx _ hwf hinv
    exact ⟨hwf, hinv⟩
  | cons op t ih =>
    intro idx hok hwf hinv
    obtain ⟨hwf2, hinv2⟩ :=
      runOp_INV idx op (hok op (List.mem_cons_self _ _)) hwf hinv
    exact ih _ (fun o ho => hok o (List.mem_cons_of_mem _ ho)) hwf2 hinv2

/-- C8.  After any sequence of `Build`, `Add` and `Delete` operations
(ids unique and non-empty; failed operations leave the index
unchanged) on a well-formed index satisfying the invariant, the
invariant still holds: a non-empty entry point names an existing
non-tombstoned node whose level equals `currentMaxLevel`, and when the
entry point was cleared (recomputation found nothing), every remaining
node is tombstoned. -/
theorem C8_entry_point_invariant (idx : HNSWIndex V) (ops : List (HOp V))
    (hops : ∀ op ∈ ops, opOK op) (hwf : WFIdx idx) (hinv : EPInv idx) :
    ((runOps idx ops).entryPoint ≠ "" →
      ∃ n, lookupA (runOps idx ops).nodes (runOps idx ops).entryPoint =
          some n ∧
        n.deleted = false ∧ n.level = (runOps idx ops).currentMaxLevel) ∧
    ((runOps idx ops).entryPoint = "" →
      ∀ p ∈ (runOps idx ops).nodes, p.2.deleted = true) :=
  (runOps_INV ops idx hops hwf hinv).2

/-- Operation sequence of the C8 witness: add `a` (level 1, becoming
the entry point), delete it (forcing entry-point recomputation), add
`b`, then rebuild from two fresh vectors. -/
def c8Ops : List (HOp ℚ) :=
  [.add "a" 1 1, .del "a", .add "b" 2 0,
   .build [("c", 3, 1), ("d", 4, 0)] 2]

/-- C8, witness: running the concrete operation sequence from the
empty index preserves the entry-point invariant. -/
theorem C8_entry_point_invariant_witness :
    (∀ op ∈ c8Ops, opOK op) ∧
    WFIdx (V := ℚ) ⟨[], "", 0, none, ⟨2, 2, 2, 2⟩⟩ ∧
    EPInv (V := ℚ) ⟨[], "", 0, none, ⟨2, 2, 2, 2⟩⟩ ∧
    (((runOps (V := ℚ) ⟨[], "", 0, none, ⟨2, 2, 2, 2⟩⟩
        c8Ops).entryPoint ≠ "" →
      ∃ n, lookupA (runOps (V := ℚ) ⟨[], "", 0, none, ⟨2, 2, 2, 2⟩⟩
            c8Ops).nodes
          (runOps (V := ℚ) ⟨[], "", 0, none, ⟨2, 2, 2, 2⟩⟩
            c8Ops).entryPoint = some n ∧
        n.deleted = false ∧
        n.level = (runOps (V := ℚ) ⟨[], "", 0, none, ⟨2, 2, 2, 2⟩⟩
          c8Ops).currentMaxLevel) ∧
    ((runOps (V := ℚ) ⟨[], "", 0, none, ⟨2, 2, 2, 2⟩⟩
        c8Ops).entryPoint = "" →
      ∀ p ∈ (runOps (V := ℚ) ⟨[], "", 0, none, ⟨2, 2, 2, 2⟩⟩
        c8Ops).nodes, p.2.deleted = true)) := by
  have h1 : ∀ op ∈ c8Ops, opOK op := by
    intro op hop
    simp only [c8Ops, List.mem_cons] at hop
    rcases hop with rfl | rfl | rfl | rfl | h
    · exact (by decide : ("a" : String) ≠ "")
    · exact trivial
    · exact (by decide : ("b" : String) ≠ "")
    · exact ⟨by decide, by decide⟩
    · simp at h
  have h2 : WFIdx (V := ℚ) ⟨[], "", 0, none, ⟨2, 2, 2, 2⟩⟩ :=
    ⟨by simp, by simp⟩
  have h3 : EPInv (V := ℚ) ⟨[], "", 0, none, ⟨2, 2, 2, 2⟩⟩ :=
    ⟨fun hc => absurd rfl hc, fun _ p hp => by simp at hp⟩
  exact ⟨h1, h2, h3,
    C8_entry_point_invariant ⟨[], "", 0, none, ⟨2, 2, 2, 2⟩⟩ c8Ops h1 h2 h3⟩

end hnsw

namespace sql

/-! ## SQL layer — tokenizer (`unnamed/part_003`), parser
(`pkg/sql/parser/parser.go`), executor (`unnamed/part_004`).

Strings are ASCII in every claim input; `unicode.IsLetter`,
`strings.ToUpper`/`ToLower` and `unicode.IsSpace` are modelled on the
ASCII range.  Token positions are dropped (the parser never reads
them).  Error messages are collapsed to `Except Unit`: no claim
depends on their text. -/

/-- `TokenType`. -/
inductive TokenType where
  | eof
  | identifier
  | keyword
  | string
  | number
  | punctuation
  | operator
  | whitespace
  | comment
  | error
  deriving Repr, DecidableEq

/-- `Token` (the `Pos` field is never consulted by the parser and is
dropped). -/
structure Token where
  type : TokenType
  value : String
  deriving Repr, DecidableEq

/-- `isWhitespace`. -/
def isWhitespace (c : Char) : Bool :=
  c = ' ' ∨ c = '\t' ∨ c = '\n' ∨ c = '\r'

/-- `unicode.IsLetter` on ASCII. -/
def isLetterGo (c : Char) : Bool :=
  ('A' ≤ c ∧ c ≤ 'Z') ∨ ('a' ≤ c ∧ c ≤ 'z')

/-- `unicode.IsDigit` on ASCII. -/
def isDigitGo (c : Char) : Bool := '0' ≤ c ∧ c ≤ '9'

/-- `isAlphaNumeric`. -/
def isAlphaNumeric (c : Char) : Bool :=
  isLetterGo c ∨ isDigitGo c ∨ c = '_'

/-- `strings.ToUpper` on ASCII. -/
def toUpperGo (s : String) : String := String.mk (s.data.map Char.toUpper)

/-- `strings.ToLower` on ASCII. -/
def toLowerGo (s : String) : String := String.mk (s.data.map Char.toLower)

/-- The `Keywords` map of the tokenizer, as the source lists it (note:
`INT` is absent). -/
def keywords : List String :=
  ["SELECT", "FROM", "WHERE", "INSERT", "INTO", "VALUES", "CREATE",
   "COLLECTION", "DROP", "DELETE", "UPDATE", "SET", "AND", "OR", "NOT",
   "NULL", "TRUE", "FALSE", "COUNT", "NEAREST", "TO", "LIMIT", "USING",
   "METRIC", "JOIN", "ON", "AS", "ORDER", "BY", "ASC", "DESC", "GROUP",
   "HAVING", "DISTINCT", "UNION", "ALL", "IN", "EXISTS"]

/-- The loop of `lexString`/`lexQuotedIdentifier` after the opening
quote `q`: the consumed characters (closing quote included) and the
rest, or `none` on an unterminated literal. -/
def scanQuoted (q : Char) : Nat → List Char → Option (List Char × List Char)
  | 0, _ => none
  | _, [] => none
  | fuel + 1, c :: rest =>
    if c = q then some ([c], rest)
    else if c = '\\' then
      match rest with
      | e :: rest2 =>
        if e = q then
          match scanQuoted q fuel rest2 with
          | none => none
          | some (cs, rem) => some (c :: e :: cs, rem)
        else
          match scanQuoted q fuel rest with
          | none => none
          | some (cs, rem) => some (c :: cs, rem)
      | [] => none
    else
      match scanQuoted q fuel rest with
      | none => none
      | some (cs, rem) => some (c :: cs, rem)

/-- The depth-matching loop of `lexVectorLiteral` after the opening
bracket. -/
def scanVector : Nat → Nat → List Char → Option (List Char × List Char)
  | 0, _, _ => none
  | _, _, [] => none
  | fuel + 1, depth, c :: rest =>
    if c = '[' then
      match scanVector fuel (depth + 1) rest with
      | none => none
      | some (cs, rem) => some (c :: cs, rem)
    else if c = ']' then
      if depth = 1 then some ([c], rest)
      else
        match scanVector fuel (depth - 1) rest with
        | none => none
        | some (cs, rem) => some (c :: cs, rem)
    else
      match scanVector fuel depth rest with
      | none => none
      | some (cs, rem) => some (c :: cs, rem)

/-- The loop of `lexMultiLineComment` after the opening `/\x2a`:
the rest of the input after the closing marker, or `none` when
unclosed. -/
def scanBlockComment : Nat → List Char → Option (List Char)
  | 0, _ => none
  | _, [] => none
  | fuel + 1, c :: rest =>
    if c = '*' then
      match rest with
      | '/' :: rest2 => some rest2
      | _ => scanBlockComment fuel rest
    else scanBlockComment fuel rest

/-- The exponent part of `lexNumber` (consumed characters appended to
`acc`). -/
def scanExponent (acc : List Char) (r : List Char) :
    Option (List Char × List Char) :=
  match r with
  | e :: r2 =>
    if e = 'e' ∨ e = 'E' then
      let (sign, r3) :=
        match r2 with
        | s :: r3 => if s = '+' ∨ s = '-' then ([s], r3) else ([], r2)
        | [] => ([], r2)
      let d3 := r3.takeWhile isDigitGo
      if d3.isEmpty then none
      else some (acc ++ [e] ++ sign ++ d3, r3.dropWhile isDigitGo)
    else some (acc, r)
  | [] => some (acc, [])

/-- `lexNumber`: digits, optional fraction (requiring a digit), then
optional exponent. -/
def scanNumber (l : List Char) : Option (List Char × List Char) :=
  let d1 := l.takeWhile isDigitGo
  let r1 := l.dropWhile isDigitGo
  match r1 with
  | '.' :: r2 =>
    let d2 := r2.takeWhile isDigitGo
    if d2.isEmpty then none
    else scanExponent (d1 ++ ['.'] ++ d2) (r2.dropWhile isDigitGo)
  | _ => scanExponent d1 r1

/-- Head-character test used by the two-character lookaheads of
`lexText` and `lexOperator`. -/
def headIs (c : Char) : List Char → Bool
  | x :: _ => x = c
  | [] => false

/-- The `lexText` dispatch loop.  Every state consumes at least one
character, so fuel `input.length + 1` never runs out.  An error state
emits a single error token and stops, as the Go lexer does (error
message texts are dropped). -/
def lexRun : Nat → List Char → List Token
  | 0, _ => []
  | fuel + 1, input =>
    match input with
    | [] => []
    | c :: rest =>
      if isWhitespace c then
        lexRun fuel (input.dropWhile isWhitespace)
      else if c = '-' ∧ headIs '-' rest then
        lexRun fuel (((rest.drop 1).dropWhile fun x => ¬x = '\n').drop 1)
      else if c = '/' ∧ headIs '*' rest then
        match scanBlockComment (rest.length + 1) (rest.drop 1) with
        | none => [⟨.error, ""⟩]
        | some rem => lexRun fuel rem
      else if c = '\'' then
        match scanQuoted '\'' (rest.length + 1) rest with
        | none => [⟨.error, ""⟩]
        | some (cs, rem) => ⟨.string, String.mk (c :: cs)⟩ :: lexRun fuel rem
      else if c = '"' then
        match scanQuoted '"' (rest.length + 1) rest with
        | none => [⟨.error, ""⟩]
        | some (cs, rem) =>
          ⟨.identifier, String.mk (c :: cs)⟩ :: lexRun fuel rem
      else if c = '[' then
        match scanVector (rest.length + 1) 1 rest with
        | none => [⟨.error, ""⟩]
        | some (cs, rem) => ⟨.string, String.mk (c :: cs)⟩ :: lexRun fuel rem
      else if isLetterGo c then
        let span := input.takeWhile isAlphaNumeric
        let rem := input.dropWhile isAlphaNumeric
        let val := String.mk span
        if toUpperGo val ∈ keywords then ⟨.keyword, val⟩ :: lexRun fuel rem
        else ⟨.identifier, val⟩ :: lexRun fuel rem
      else if isDigitGo c then
        match scanNumber input with
        | none => [⟨.error, ""⟩]
        | some (cs, rem) => ⟨.number, String.mk cs⟩ :: lexRun fuel rem
      else if c = ',' ∨ c = '(' ∨ c = ')' ∨ c = ';' ∨ c = '{' ∨ c = '}' then
        ⟨.punctuation, String.mk [c]⟩ :: lexRun fuel rest
      else if c = '=' ∨ c = '>' ∨ c = '<' ∨ c = '!' ∨ c = '+' ∨ c = '-' ∨
          c = '*' ∨ c = '/' ∨ c = '%' then
        if (c = '=' ∨ c = '!' ∨ c = '<' ∨ c = '>') ∧ headIs '=' rest then
          ⟨.operator, String.mk [c, '=']⟩ :: lexRun fuel (rest.drop 1)
        else ⟨.operator, String.mk [c]⟩ :: lexRun fuel rest
      else [⟨.error, String.mk [c]⟩]

/-- `Tokenizer.Tokenize`: run the state machine, then append the EOF
token. -/
def Tokenize (s : String) : List Token :=
  lexRun (s.data.length + 1) s.data ++ [⟨.eof, ""⟩]

/-- `NodeType` (`from` and `where` are Lean keywords, hence `fromN`
and `whereN`). -/
inductive NodeType where
  | select
  | insert
  | delete
  | create
  | drop
  | update
  | nearestTo
  | fromN
  | whereN
  | limit
  | column
  | alias
  | table
  | identifier
  | binaryOp
  | literal
  | vector
  | metric
  deriving Repr, DecidableEq

/-- `parser.Node`. -/
inductive SNode where
  | mk (type : NodeType) (value : String) (children : List SNode)

def SNode.type : SNode → NodeType
  | .mk t _ _ => t

def SNode.value : SNode → String
  | .mk _ v _ => v

def SNode.children : SNode → List SNode
  | .mk _ _ c => c

/-- `Parser.peek` (out of range: the EOF token). -/
def peekP (ts : List Token) (cur : Nat) : Token := ts.getD cur ⟨.eof, ""⟩

/-- `Parser.check`. -/
def checkP (ts : List Token) (cur : Nat) (tt : TokenType) : Bool :=
  if cur < ts.length then (peekP ts cur).type = tt else false

/-- `Parser.consume`. -/
def consumeP (ts : List Token) (cur : Nat) (tt : TokenType) :
    Except Unit (Token × Nat) :=
  if checkP ts cur tt then .ok (peekP ts cur, cur + 1) else .error ()

/-- `Parser.consumeKeyword`. -/
def consumeKeywordP (ts : List Token) (cur : Nat) (kw : String) :
    Except Unit (Token × Nat) :=
  if checkP ts cur .keyword ∧ toUpperGo (peekP ts cur).value = toUpperGo kw
  then .ok (peekP ts cur, cur + 1)
  else .error ()

/-- `parseIdentifier`. -/
def parseIdentifierP (ts : List Token) (cur : Nat) :
    Except Unit (SNode × Nat) :=
  if checkP ts cur .identifier then
    .ok (.mk .identifier (peekP ts cur).value [], cur + 1)
  else if checkP ts cur .operator ∧ (peekP ts cur).value = "*" then
    .ok (.mk .identifier (peekP ts cur).value [], cur + 1)
  else .error ()

/-- `parsePrimary`'s number branch: `strconv.ParseFloat` succeeds on
every token `lexNumber` emits that contains a dot; without a dot,
`strconv.ParseInt` accepts plain digit runs only (an exponent form
like `1e5` errors; int64 overflow is not modelled, no claim reaches
it). -/
def parseNumberToken (v : String) : Except Unit SNode :=
  if '.' ∈ v.data then .ok (.mk .literal v [])
  else if v.data.all isDigitGo then .ok (.mk .literal v [])
  else .error ()

mutual

/-- `parseExpression`. -/
def parseExpressionP (ts : List Token) : Nat → Nat →
    Except Unit (SNode × Nat)
  | 0, _ => .error ()
  | fuel + 1, cur => parseLogicalOrP ts fuel cur

termination_by structural fuel => fuel

/-- `parseLogicalOr`. -/
def parseLogicalOrP (ts : List Token) : Nat → Nat →
    Except Unit (SNode × Nat)
  | 0, _ => .error ()
  | fuel + 1, cur =>
    match parseLogicalAndP ts fuel cur with
    | .error e => .error e
    | .ok (left, c2) => orLoopP ts fuel left c2

termination_by structural fuel => fuel

/-- The `OR` loop of `parseLogicalOr`. -/
def orLoopP (ts : List Token) : Nat → SNode → Nat →
    Except Unit (SNode × Nat)
  | 0, _, _ => .error ()
  | fuel + 1, left, cur =>
    if checkP ts cur .keyword ∧ toUpperGo (peekP ts cur).value = "OR" then
      match parseLogicalAndP ts fuel (cur + 1) with
      | .error e => .error e
      | .ok (right, c2) =>
        orLoopP ts fuel (.mk .binaryOp "OR" [left, right]) c2
    else .ok (left, cur)

termination_by structural fuel => fuel

/-- `parseLogicalAnd`. -/
def parseLogicalAndP (ts : List Token) : Nat → Nat →
    Except Unit (SNode × Nat)
  | 0, _ => .error ()
  | fuel + 1, cur =>
    match parseEqualityP ts fuel cur with
    | .error e => .error e
    | .ok (left, c2) => andLoopP ts fuel left c2

termination_by structural fuel => fuel

/-- The `AND` loop of `parseLogicalAnd`. -/
def andLoopP (ts : List Token) : Nat → SNode → Nat →
    Except Unit (SNode × Nat)
  | 0, _, _ => .error ()
  | fuel + 1, left, cur =>
    if checkP ts cur .keyword ∧ toUpperGo (peekP ts cur).value = "AND" then
      match parseEqualityP ts fuel (cur + 1) with
      | .error e => .error e
      | .ok (right, c2) =>
        andLoopP ts fuel (.mk .binaryOp "AND" [left, right]) c2
    else .ok (left, cur)

termination_by structural fuel => fuel

/-- `parseEquality`. -/
def parseEqualityP (ts : List Token) : Nat → Nat →
    Except Unit (SNode × Nat)
  | 0, _ => .error ()
  | fuel + 1, cur =>
    match parseComparisonP ts fuel cur with
    | .error e => .error e
    | .ok (left, c2) => eqLoopP ts fuel left c2

termination_by structural fuel => fuel

/-- The `=`/`!=`/`<>` loop of `parseEquality`. -/
def eqLoopP (ts : List Token) : Nat → SNode → Nat →
    Except Unit (SNode × Nat)
  | 0, _, _ => .error ()
  | fuel + 1, left, cur =>
    if checkP ts cur .operator ∧
        ((peekP ts cur).value = "=" ∨ (peekP ts cur).value = "!=" ∨
          (peekP ts cur).value = "<>") then
      match parseComparisonP ts fuel (cur + 1) with
      | .error e => .error e
      | .ok (right, c2) =>
        eqLoopP ts fuel
          (.mk .binaryOp (peekP ts cur).value [left, right]) c2
    else .ok (left, cur)

termination_by structural fuel => fuel

/-- `parseComparison`. -/
def parseComparisonP (ts : List Token) : Nat → Nat →
    Except Unit (SNode × Nat)
  | 0, _ => .error ()
  | fuel + 1, cur =>
    match parseTermP ts fuel cur with
    | .error e => .error e
    | .ok (left, c2) => cmpLoopP ts fuel left c2

termination_by structural fuel => fuel

/-- The `<`/`<=`/`>`/`>=` loop of `parseComparison`. -/
def cmpLoopP (ts : List Token) : Nat → SNode → Nat →
    Except Unit (SNode × Nat)
  | 0, _, _ => .error ()
  | fuel + 1, left, cur =>
    if checkP ts cur .operator ∧
        ((peekP ts cur).value = "<" ∨ (peekP ts cur).value = "<=" ∨
          (peekP ts cur).value = ">" ∨ (peekP ts cur).value = ">=") then
      match parseTermP ts fuel (cur + 1) with
      | .error e => .error e
      | .ok (right, c2) =>
        cmpLoopP ts fuel
          (.mk .binaryOp (peekP ts cur).value [left, right]) c2
    else .ok (left, cur)

termination_by structural fuel => fuel

/-- `parseTerm`. -/
def parseTermP (ts : List Token) : Nat → Nat → Except Unit (SNode × Nat)
  | 0, _ => .error ()
  | fuel + 1, cur =>
    match parseFactorP ts fuel cur with
    | .error e => .error e
    | .ok (left, c2) => termLoopP ts fuel left c2

termination_by structural fuel => fuel

/-- The `+`/`-` loop of `parseTerm`. -/
def termLoopP (ts : List Token) : Nat → SNode → Nat →
    Except Unit (SNode × Nat)
  | 0, _, _ => .error ()
  | fuel + 1, left, cur =>
    if checkP ts cur .operator ∧
        ((peekP ts cur).value = "+" ∨ (peekP ts cur).value = "-") then
      match parseFactorP ts fuel (cur + 1) with
      | .error e => .error e
      | .ok (right, c2) =>
        termLoopP ts fuel
          (.mk .binaryOp (peekP ts cur).value [left, right]) c2
    else .ok (left, cur)

termination_by structural fuel => fuel

/-- `parseFactor`. -/
def parseFactorP (ts : List Token) : Nat → Nat → Except Unit (SNode × Nat)
  | 0, _ => .error ()
  | fuel + 1, cur =>
    match parseUnaryP ts fuel cur with
    | .error e => .error e
    | .ok (left, c2) => factorLoopP ts fuel left c2

termination_by structural fuel => fuel

/-- The `*`/`/`/`%` loop of `parseFactor`. -/
def factorLoopP (ts : List Token) : Nat → SNode → Nat →
    Except Unit (SNode × Nat)
  | 0, _, _ => .error ()
  | fuel + 1, left, cur =>
    if checkP ts cur .operator ∧
        ((peekP ts cur).value = "*" ∨ (peekP ts cur).value = "/" ∨
          (peekP ts cur).value = "%") then
      match parseUnaryP ts fuel (cur + 1) with
      | .error e => .error e
      | .ok (right, c2) =>
        factorLoopP ts fuel
          (.mk .binaryOp (peekP ts cur).value [left, right]) c2
    else .ok (left, cur)

termination_by structural fuel => fuel

/-- `parseUnary`. -/
def parseUnaryP (ts : List Token) : Nat → Nat → Except Unit (SNode × Nat)
  | 0, _ => .error ()
  | fuel + 1, cur =>
    if checkP ts cur .operator ∧
        ((peekP ts cur).value = "-" ∨ (peekP ts cur).value = "+" ∨
          (peekP ts cur).value = "!") then
      match parseUnaryP ts fuel (cur + 1) with
      | .error e => .error e
      | .ok (right, c2) =>
        .ok (.mk .binaryOp (peekP ts cur).value [right], c2)
    else parsePrimaryP ts fuel cur

termination_by structural fuel => fuel

/-- `parsePrimary`. -/
def parsePrimaryP (ts : List Token) : Nat → Nat → Except Unit (SNode × Nat)
  | 0, _ => .error ()
  | fuel + 1, cur =>
    if checkP ts cur .punctuation ∧ (peekP ts cur).value = "(" then
      match parseExpressionP ts fuel (cur + 1) with
      | .error e => .error e
      | .ok (expr, c2) =>
        match consumeP ts c2 .punctuation with
        | .error e => .error e
        | .ok (_, c3) => .ok (expr, c3)
    else if checkP ts cur .number then
      match parseNumberToken (peekP ts cur).value with
      | .error e => .error e
      | .ok node => .ok (node, cur + 1)
    else if checkP ts cur .string then
      .ok (.mk .literal (peekP ts cur).value [], cur + 1)
    else if checkP ts cur .punctuation ∧ (peekP ts cur).value = "[" then
      -- Unreachable from `Tokenize` output (a bracket lexes as one
      -- string token), modelled nonetheless.
      if checkP ts (cur + 1) .punctuation ∧ (peekP ts (cur + 1)).value = "]"
      then .ok (.mk .vector "[]" [], cur + 2)
      else if checkP ts (cur + 1) .number then
        vecLoopP ts fuel [(peekP ts (cur + 1)).value] (cur + 2)
      else .error ()
    else parseIdentifierP ts cur

termination_by structural fuel => fuel

/-- The value loop of `parsePrimary`'s vector branch. -/
def vecLoopP (ts : List Token) : Nat → List String → Nat →
    Except Unit (SNode × Nat)
  | 0, _, _ => .error ()
  | fuel + 1, values, cur =>
    if checkP ts cur .punctuation ∧ (peekP ts cur).value = "," then
      if checkP ts (cur + 1) .number then
        vecLoopP ts fuel (values ++ [(peekP ts (cur + 1)).value]) (cur + 2)
      else .error ()
    else
      if checkP ts cur .punctuation ∧ (peekP ts cur).value = "]" then
        .ok (.mk .vector
          ("[" ++ String.intercalate "," values ++ "]") [], cur + 1)
      else .error ()


termination_by structural fuel => fuel
end

/-- The column-list loop of `parseInsert`. -/
def colLoopP (ts : List Token) : Nat → List SNode → Nat →
    Except Unit (List SNode × Nat)
  | 0, _, _ => .error ()
  | fuel + 1, acc, cur =>
    match consumeP ts cur .identifier with
    | .error e => .error e
    | .ok (tok, c2) =>
      let acc2 := acc ++ [SNode.mk .column tok.value []]
      if checkP ts c2 .punctuation ∧ (peekP ts c2).value = "," then
        colLoopP ts fuel acc2 (c2 + 1)
      else .ok (acc2, c2)

/-- The values loop of `parseInsert`. -/
def valLoopP (ts : List Token) : Nat → List SNode → Nat →
    Except Unit (List SNode × Nat)
  | 0, _, _ => .error ()
  | fuel + 1, acc, cur =>
    match parseExpressionP ts fuel cur with
    | .error e => .error e
    | .ok (value, c2) =>
      let acc2 := acc ++ [value]
      if checkP ts c2 .punctuation ∧ (peekP ts c2).value = "," then
        valLoopP ts fuel acc2 (c2 + 1)
      else .ok (acc2, c2)

/-- Consume the optional trailing semicolon. -/
def skipSemi (ts : List Token) (cur : Nat) : Nat :=
  if checkP ts cur .punctuation ∧ (peekP ts cur).value = ";" then cur + 1
  else cur

/-- `parseInsert`. -/
def parseInsertP (ts : List Token) (fuel : Nat) :
    Except Unit (SNode × Nat) :=
  match consumeKeywordP ts 0 "INSERT" with
  | .error e => .error e
  | .ok (_, c1) =>
    match consumeKeywordP ts c1 "INTO" with
    | .error e => .error e
    | .ok (_, c2) =>
      match consumeP ts c2 .identifier with
      | .error e => .error e
      | .ok (table, c3) =>
        let tableNode := SNode.mk .table table.value []
        let colStep : Except Unit (List SNode × Nat) :=
          if checkP ts c3 .punctuation ∧ (peekP ts c3).value = "(" then
            match colLoopP ts fuel [] (c3 + 1) with
            | .error e => .error e
            | .ok (cols, c4) =>
              match consumeP ts c4 .punctuation with
              | .error e => .error e
              | .ok (_, c5) =>
                .ok ([SNode.mk .identifier "columns" cols], c5)
          else .ok ([], c3)
        match colStep with
        | .error e => .error e
        | .ok (colNodes, c6) =>
          match consumeKeywordP ts c6 "VALUES" with
          | .error e => .error e
          | .ok (_, c7) =>
            match consumeP ts c7 .punctuation with
            | .error e => .error e
            | .ok (_, c8) =>
              match valLoopP ts fuel [] c8 with
              | .error e => .error e
              | .ok (vals, c9) =>
                match consumeP ts c9 .punctuation with
                | .error e => .error e
                | .ok (_, c10) =>
                  .ok (.mk .insert ""
                    ([tableNode] ++ colNodes ++
                      [SNode.mk .identifier "values" vals]),
                    skipSemi ts c10)

/-- `parseDelete`. -/
def parseDeleteP (ts : List Token) (fuel : Nat) :
    Except Unit (SNode × Nat) :=
  match consumeKeywordP ts 0 "DELETE" with
  | .error e => .error e
  | .ok (_, c1) =>
    match consumeKeywordP ts c1 "FROM" with
    | .error e => .error e
    | .ok (_, c2) =>
      match consumeP ts c2 .identifier with
      | .error e => .error e
      | .ok (table, c3) =>
        let tableNode := SNode.mk .table table.value []
        if checkP ts c3 .keyword ∧ toUpperGo (peekP ts c3).value = "WHERE"
        then
          match parseExpressionP ts fuel (c3 + 1) with
          | .error e => .error e
          | .ok (cond, c4) =>
            .ok (.mk .delete ""
              [tableNode, SNode.mk .whereN "" [cond]], skipSemi ts c4)
        else .ok (.mk .delete "" [tableNode], skipSemi ts c3)

/-- `parseCreate`. -/
def parseCreateP (ts : List Token) : Except Unit (SNode × Nat) :=
  match consumeKeywordP ts 0 "CREATE" with
  | .error e => .error e
  | .ok (_, c1) =>
    match consumeKeywordP ts c1 "COLLECTION" with
    | .error e => .error e
    | .ok (_, c2) =>
      match consumeP ts c2 .identifier with
      | .error e => .error e
      | .ok (collection, c3) =>
        let tableNode := SNode.mk .table collection.value []
        if checkP ts c3 .punctuation ∧ (peekP ts c3).value = "(" then
          match consumeP ts (c3 + 1) .identifier with
          | .error e => .error e
          | .ok (dimension, c4) =>
            if ¬toUpperGo dimension.value = "DIMENSION" then .error ()
            else
              match consumeKeywordP ts c4 "INT" with
              | .error e => .error e
              | .ok (intType, c5) =>
                let dimensionNode := SNode.mk .identifier "dimension"
                  [SNode.mk .literal intType.value []]
                match consumeP ts c5 .punctuation with
                | .error e => .error e
                | .ok (_, c6) =>
                  .ok (.mk .create "" [tableNode, dimensionNode],
                    skipSemi ts c6)
        else .ok (.mk .create "" [tableNode], skipSemi ts c3)

/-- `parseDrop`. -/
def parseDropP (ts : List Token) : Except Unit (SNode × Nat) :=
  match consumeKeywordP ts 0 "DROP" with
  | .error e => .error e
  | .ok (_, c1) =>
    match consumeKeywordP ts c1 "COLLECTION" with
    | .error e => .error e
    | .ok (_, c2) =>
      match consumeP ts c2 .identifier with
      | .error e => .error e
      | .ok (collection, c3) =>
        .ok (.mk .drop "" [SNode.mk .table collection.value []],
          skipSemi ts c3)

/-- `Parser.Parse`: dispatch on the first token.  `SELECT` and
`UPDATE` statements are outside every claim and are not modelled
(mapped to an error). -/
def parseStmt (ts : List Token) (fuel : Nat) : Except Unit SNode :=
  if ts.length = 0 then .error ()
  else if (peekP ts 0).type = .keyword then
    if toUpperGo (peekP ts 0).value = "INSERT" then
      (parseInsertP ts fuel).map Prod.fst
    else if toUpperGo (peekP ts 0).value = "DELETE" then
      (parseDeleteP ts fuel).map Prod.fst
    else if toUpperGo (peekP ts 0).value = "CREATE" then
      (parseCreateP ts).map Prod.fst
    else if toUpperGo (peekP ts 0).value = "DROP" then
      (parseDropP ts).map Prod.fst
    else .error ()
  else .error ()

/-- `parser.Parse`: tokenize, filter comments and whitespace, parse.
The parser fuel bounds recursion depth and loop iterations; each
consumes a token or descends one grammar level, so the chosen bound is
never reached on the claims' inputs. -/
def ParseGo (s : String) : Except Unit SNode :=
  let ts := (Tokenize s).filter fun t =>
    ¬t.type = .comment ∧ ¬t.type = .whitespace
  parseStmt ts (50 * (ts.length + 1))

/-! ## Executor — `unnamed/part_004`.  Vector values are modelled as
exact rationals (float32 rounding plays no rôle in any claim); the
store is the `MemoryStore` map as an association list in insertion
order (Go map iteration order is unspecified; the claims are
insensitive to it). -/

/-- `vector.Vector` as the executor uses it (id, values, metadata). -/
structure Rec where
  id : String
  values : List ℚ
  metadata : List (String × String)
  deriving Repr, DecidableEq

/-- The `MemoryStore` map. -/
abbrev Store : Type := List (String × Rec)

/-- `MemoryStore.Insert`: duplicate ids are rejected. -/
def storeInsert (st : Store) (v : Rec) : Except Unit Store :=
  match hnsw.lookupA st v.id with
  | some _ => .error ()
  | none => .ok (st ++ [(v.id, v)])

/-- `MemoryStore.Delete`. -/
def storeDelete (st : Store) (id : String) : Except Unit Store :=
  match hnsw.lookupA st id with
  | none => .error ()
  | some _ => .ok (st.filter fun p => ¬p.1 = id)

/-- `strings.Trim`: strip leading and trailing characters of the
cutset. -/
def trimGo (s : String) (cutset : String) : String :=
  String.mk
    (((s.data.dropWhile (· ∈ cutset.data)).reverse.dropWhile
      (· ∈ cutset.data)).reverse)

/-- `unicode.IsSpace` on ASCII. -/
def isSpaceGo (c : Char) : Bool :=
  c = ' ' ∨ c = '\t' ∨ c = '\n' ∨ c = '\r' ∨ c = '\x0b' ∨ c = '\x0c'

/-- `strings.TrimSpace` on ASCII. -/
def trimSpaceGo (s : String) : String :=
  String.mk
    (((s.data.dropWhile isSpaceGo).reverse.dropWhile isSpaceGo).reverse)

/-- `strings.Split` on a one-character separator. -/
def splitSep (sep : Char) : List Char → List (List Char)
  | [] => [[]]
  | c :: rest =>
    if c = sep then [] :: splitSep sep rest
    else
      match splitSep sep rest with
      | [] => [[c]]
      | g :: gs => (c :: g) :: gs

/-- `strings.Split` on strings. -/
def splitGoStr (s : String) (sep : Char) : List String :=
  (splitSep sep s.data).map String.mk

/-- `strings.HasPrefix`. -/
def startsWithGo (s pre : String) : Bool := pre.data.isPrefixOf s.data

/-- `strings.TrimPrefix`. -/
def trimPrefixGo (s pre : String) : String :=
  if startsWithGo s pre then String.mk (s.data.drop pre.data.length) else s

/-- Decimal digit run value. -/
def digitsVal (l : List Char) : Nat :=
  l.foldl (fun a c => a * 10 + (c.toNat - 48)) 0

/-- `strconv.ParseFloat`, restricted to the plain decimal forms the
SQL layer produces (optional sign, digits, optional fraction);
exponents, hex and inf/nan spellings are outside every claim input and
map to `none`.  Values are exact rationals: float32 rounding is
irrelevant to the claims. -/
def parseDec (s : List Char) : Option ℚ :=
  let signed : Int × List Char :=
    match s with
    | '-' :: t => (-1, t)
    | '+' :: t => (1, t)
    | _ => (1, s)
  let ip := signed.2.takeWhile isDigitGo
  let r1 := signed.2.dropWhile isDigitGo
  match r1 with
  | [] =>
    if ip.isEmpty then none
    else some (mkRat (signed.1 * digitsVal ip) 1)
  | '.' :: r2 =>
    let fp := r2.takeWhile isDigitGo
    if ip.isEmpty ∧ fp.isEmpty then none
    else
      match r2.dropWhile isDigitGo with
      | [] =>
        some (mkRat
          (signed.1 * (digitsVal ip * 10 ^ fp.length + digitsVal fp))
          (10 ^ fp.length))
      | _ => none
  | _ => none

/-- The vector-literal parse loop of `executeInsert` (every part must
parse; errors abort). -/
def parseParts : List String → Option (List ℚ)
  | [] => some []
  | p :: rest =>
    match parseDec (trimSpaceGo p).data with
    | none => none
    | some v =>
      match parseParts rest with
      | none => none
      | some vs => some (v :: vs)

/-- The vector-literal parse loop of `executeNearestSearch` (empty
parts are skipped). -/
def parsePartsSkipEmpty : List String → Option (List ℚ)
  | [] => some []
  | p :: rest =>
    let t := trimSpaceGo p
    if t = "" then parsePartsSkipEmpty rest
    else
      match parseDec t.data with
      | none => none
      | some v =>
        match parsePartsSkipEmpty rest with
        | none => none
        | some vs => some (v :: vs)

/-- A cell of the `values` map of `executeInsert`. -/
inductive GoVal where
  | str (s : String)
  | vec (l : List ℚ)
  deriving Repr, DecidableEq

/-- The default column names of `executeInsert`. -/
def colName (columnNames : List String) (i : Nat) : String :=
  if i < columnNames.length then columnNames.getD i ""
  else if i = 0 then "id"
  else if i = 1 then "vector"
  else "col" ++ toString i

/-- The values loop of `executeInsert`: map assignment keyed by column
name. -/
def buildValues (columnNames : List String) :
    List SNode → Nat → List (String × GoVal) →
      Except Unit (List (String × GoVal))
  | [], _, acc => .ok acc
  | vn :: rest, i, acc =>
    let cn := colName columnNames i
    match vn.type with
    | .literal =>
      buildValues columnNames rest (i + 1) (hnsw.upsertA acc cn (.str vn.value))
    | .vector =>
      match parseParts (splitGoStr (trimGo vn.value "[]") ',') with
      | none => .error ()
      | some vals =>
        buildValues columnNames rest (i + 1) (hnsw.upsertA acc cn (.vec vals))
    | _ =>
      buildValues columnNames rest (i + 1) (hnsw.upsertA acc cn (.str vn.value))

/-- `fmt.Sprintf("%v", value)` for the id extraction.  An id given as
a float slice is outside every claim and is collapsed to `""`. -/
def fmtVal : GoVal → String
  | .str s => s
  | .vec _ => ""

/-- The extraction loop of `executeInsert` over the values map. -/
def extractLoop : List (String × GoVal) → String → List ℚ →
    Except Unit (String × List ℚ)
  | [], id, vv => .ok (id, vv)
  | (k, v) :: rest, id, vv =>
    if toLowerGo k = "id" then extractLoop rest (fmtVal v) vv
    else if toLowerGo k = "vector" then
      match v with
      | .vec l => extractLoop rest id l
      | .str s =>
        match parseParts (splitGoStr (trimGo s "[]") ',') with
        | none => .error ()
        | some l => extractLoop rest id l
    else extractLoop rest id vv

/-- `QueryExecutor.executeInsert`: on success, the result message and
the updated store. -/
def executeInsert (node : SNode) (st : Store) :
    Except Unit (String × Store) :=
  match node.children with
  | [] => .error ()
  | c0 :: _ =>
    if ¬c0.type = .table then .error ()
    else
      let columnsNode := (node.children.filter fun ch =>
        ch.type = .identifier ∧ ch.value = "columns").getLast?
      let valuesNode := (node.children.filter fun ch =>
        ch.type = .identifier ∧ ch.value = "values").getLast?
      match valuesNode with
      | none => .error ()
      | some vnode =>
        if vnode.children.isEmpty then .error ()
        else
          let columnNames :=
            match columnsNode with
            | none => []
            | some cn => cn.children.map SNode.value
          match buildValues columnNames vnode.children 0 [] with
          | .error e => .error e
          | .ok values =>
            match extractLoop values "" [] with
            | .error e => .error e
            | .ok (id, vectorValues) =>
              if id = "" then .error ()
              else if vectorValues.isEmpty then .error ()
              else
                match storeInsert st ⟨id, vectorValues, []⟩ with
                | .error e => .error e
                | .ok st2 =>
                  .ok ("Inserted 1 vector with ID '" ++ id ++ "'", st2)

mutual

/-- Height of an AST node (the fuel needed to evaluate a `WHERE`
condition over it). -/
def snodeDepth : SNode → Nat
  | .mk _ _ c => 1 + snodeDepthList c

def snodeDepthList : List SNode → Nat
  | [] => 0
  | n :: rest => max (snodeDepth n) (snodeDepthList rest)

end

/-- `evaluateWhereCondition`.  The `LIKE` branch (regex matching) is
outside every claim and maps to an error; a missing child that Go
would dereference as a nil pointer is an error as well. -/
def evalWhere : Nat → SNode → Rec → Except Unit Bool
  | 0, _, _ => .error ()
  | fuel + 1, cond, vec =>
    match cond.type with
    | .binaryOp =>
      match cond.children with
      | l :: r :: _ =>
        if toUpperGo cond.value = "AND" then
          match evalWhere fuel l vec with
          | .error e => .error e
          | .ok left =>
            if ¬left then .ok false else evalWhere fuel r vec
        else if toUpperGo cond.value = "OR" then
          match evalWhere fuel l vec with
          | .error e => .error e
          | .ok left =>
            if left then .ok true else evalWhere fuel r vec
        else if toUpperGo cond.value = "=" then
          if l.type = .identifier ∧ toLowerGo l.value = "id" ∧
              r.type = .literal then
            .ok (vec.id = trimGo r.value "'\"")
          else if l.type = .identifier ∧
              startsWithGo (toLowerGo l.value) "metadata." ∧
              r.type = .literal then
            let key := trimPrefixGo l.value "metadata."
            let lit := trimGo r.value "'\""
            .ok (match hnsw.lookupA vec.metadata key with
              | some actual => actual = lit
              | none => false)
          else .error ()
        else if toUpperGo cond.value = "!=" ∨ toUpperGo cond.value = "<>"
        then
          if l.type = .identifier ∧ toLowerGo l.value = "id" ∧
              r.type = .literal then
            .ok (¬vec.id = trimGo r.value "'\"")
          else if l.type = .identifier ∧
              startsWithGo (toLowerGo l.value) "metadata." ∧
              r.type = .literal then
            let key := trimPrefixGo l.value "metadata."
            let lit := trimGo r.value "'\""
            .ok (match hnsw.lookupA vec.metadata key with
              | some actual => ¬actual = lit
              | none => true)
          else .error ()
        else .error ()
      | _ => .error ()
    | _ => .error ()

/-- The id loop of `executeDelete`: a store error on `Get`/`Delete`
skips the id, a `WHERE` evaluation error aborts. -/
def delLoop (cond : SNode) : List String → Store → Nat →
    Except Unit (Nat × Store)
  | [], st, cnt => .ok (cnt, st)
  | id :: rest, st, cnt =>
    match hnsw.lookupA st id with
    | none => delLoop cond rest st cnt
    | some vec =>
      match evalWhere (snodeDepth cond) cond vec with
      | .error e => .error e
      | .ok b =>
        if b then
          match storeDelete st id with
          | .error _ => delLoop cond rest st cnt
          | .ok st2 => delLoop cond rest st2 (cnt + 1)
        else delLoop cond rest st cnt

/-- `QueryExecutor.executeDelete`: the deletion count and the updated
store. -/
def executeDelete (node : SNode) (st : Store) :
    Except Unit (Nat × Store) :=
  match node.children with
  | [] => .error ()
  | c0 :: _ =>
    if ¬c0.type = .table then .error ()
    else
      match (node.children.filter fun ch => ch.type = .whereN).head? with
      | none => .error ()
      | some wn =>
        match wn.children with
        | [] => .error ()
        | cond :: _ => delLoop cond (st.map Prod.fst) st 0

/-- A cell of a result `Row` (`Row []interface{}`). -/
inductive RowCell where
  | id (s : String)
  | dist (d : ℚ)
  | vecStr (vals : List ℚ)
  | dim (n : Nat)
  deriving Repr, DecidableEq

/-- The per-result row of `executeNearestSearch` (`switch col.Name`;
the default branch returns the id). -/
def rowCells (cols : List String) (r : SearchResult (List ℚ)) :
    List RowCell :=
  cols.map fun cn =>
    if cn = "id" then .id r.id
    else if cn = "distance" then .dist r.distance
    else if cn = "vector" then .vecStr r.vec
    else if cn = "dimension" then .dim r.vec.length
    else .id r.id

/-- The result loop of `executeNearestSearch`: results whose id equals
the query vector's id are skipped. -/
def buildRows (qid : String) (cols : List String)
    (results : List (SearchResult (List ℚ))) : List (List RowCell) :=
  (results.filter fun r => ¬r.id = qid).map (rowCells cols)

/-- `len(nearestNode.Children) > 1 && Children[1].Type == NodeMetric`. -/
def hasMetricChild (restCh : List SNode) : Bool :=
  match restCh with
  | mn :: _ => mn.type = .metric
  | [] => false

/-- The tail of `executeNearestSearch` once the query vector is built:
flat-index build and search (the executor's `IndexTypeFlat` branch;
the HNSW branch differs only in the index), then row construction.  A
`METRIC` clause (`distance.GetMetric`) is outside every claim and maps
to an error. -/
def searchWith (metric : List ℚ → List ℚ → Except Unit ℚ)
    (queryVec : Rec) (restCh : List SNode) (columns : List String)
    (limit : Int) (st : Store) :
    Except Unit (List String × List (List RowCell)) :=
  if hasMetricChild restCh then .error ()
  else
    let limit2 : Int := if limit < 0 then 10 else limit
    let vectors := (st.map Prod.fst).filterMap (hnsw.lookupA st)
    match flat.search
        (flat.build ⟨[], some metric⟩ (vectors.map fun r => (r.id, r.values)))
        queryVec.values limit2 with
    | .error _ => .error ()
    | .ok results =>
      let columns2 :=
        if "distance" ∈ columns then columns else columns ++ ["distance"]
      .ok (columns2, buildRows queryVec.id columns2 results)

/-- `QueryExecutor.executeNearestSearch`: build the query vector (from
the store for an identifier, under the fixed id `"query"` for a
vector or string literal), then search. -/
def executeNearestSearch (metric : List ℚ → List ℚ → Except Unit ℚ)
    (nearestNode : SNode) (columns : List String) (limit : Int)
    (st : Store) : Except Unit (List String × List (List RowCell)) :=
  match nearestNode.children with
  | [] => .error ()
  | queryNode :: restCh =>
    if queryNode.type = .identifier then
      match hnsw.lookupA st queryNode.value with
      | none => .error ()
      | some v => searchWith metric v restCh columns limit st
    else if queryNode.type = .vector ∨ queryNode.type = .literal then
      match parsePartsSkipEmpty
          (splitGoStr (trimGo queryNode.value "[]") ',') with
      | none => .error ()
      | some vals =>
        searchWith metric ⟨"query", vals, []⟩ restCh columns limit st
    else .error ()

/-- `ExecuteQuery` for the statement forms the claims exercise
(`INSERT`, `DELETE`); the result is the message of the single result
row. -/
def executeQueryGo (s : String) (st : Store) :
    Except Unit (String × Store) :=
  match ParseGo s with
  | .error e => .error e
  | .ok ast =>
    match ast.type with
    | .insert => executeInsert ast st
    | .delete =>
      match executeDelete ast st with
      | .error e => .error e
      | .ok (cnt, st2) =>
        .ok ("Deleted " ++ toString cnt ++ " vectors", st2)
    | _ => .error ()

set_option maxRecDepth 8000

/-- C7.  `CREATE COLLECTION vectors (DIMENSION INT)` is REJECTED by the
parser: `INT` is missing from the tokenizer's fixed `Keywords` map, so
it lexes as an identifier token, and `parseCreate`'s
`consumeKeyword("INT")` — which requires a keyword token — fails.  The
spec (and the repo's SQL design document) list `INT` among the
keywords and the dimension form as grammatical; the code diverges. -/
theorem C7_create_dimension_int_rejected :
    ParseGo "CREATE COLLECTION vectors (DIMENSION INT)" = .error () ∧
    "INT" ∉ keywords ∧
    (⟨.identifier, "INT"⟩ : Token) ∈
      Tokenize "CREATE COLLECTION vectors (DIMENSION INT)" :=
  ⟨rfl, by decide, by decide⟩

/-- C1.  The executor pipeline stores the INSERT id WITH its
surrounding quotes: `lexString` emits the string token quotes
included, `parsePrimary` copies that token value into the literal
node, and `executeInsert` never strips quotes — so the record id is
`'v1'` (5 characters).  `DELETE ... WHERE id = 'v1'` compares against
the TRIMMED literal `v1` (`evaluateWhereCondition` trims `'` and `"`),
which never matches, and reports zero deletions instead of one. -/
theorem C1_insert_stores_quoted_id :
    executeQueryGo
        "INSERT INTO vectors (id, vector) VALUES ('v1', [1.0, 2.0])" [] =
      .ok ("Inserted 1 vector with ID ''v1''",
        [("'v1'", ⟨"'v1'", [1, 2], []⟩)]) ∧
    executeQueryGo "DELETE FROM vectors WHERE id = 'v1'"
        [("'v1'", ⟨"'v1'", [1, 2], []⟩)] =
      .ok ("Deleted 0 vectors", [("'v1'", ⟨"'v1'", [1, 2], []⟩)]) ∧
    hnsw.lookupA [("'v1'", (⟨"'v1'", [1, 2], []⟩ : Rec))] "v1" = none :=
  ⟨rfl, rfl, rfl⟩

theorem rowCells_id (cols : List String) (r : SearchResult (List ℚ))
    (c : RowCell) (hc : c ∈ rowCells cols r) (s : String)
    (he : c = .id s) : s = r.id := by
  unfold rowCells at hc
  obtain ⟨cn, _, hcn⟩ := List.mem_map.mp hc
  have heq := hcn.trans he
  by_cases h1 : cn = "id"
  · rw [if_pos h1] at heq
    exact (RowCell.id.inj heq).symm
  · rw [if_neg h1] at heq
    by_cases h2 : cn = "distance"
    · rw [if_pos h2] at heq
      cases heq
    · rw [if_neg h2] at heq
      by_cases h3 : cn = "vector"
      · rw [if_pos h3] at heq
        cases heq
      · rw [if_neg h3] at heq
        by_cases h4 : cn = "dimension"
        · rw [if_pos h4] at heq
          cases heq
        · rw [if_neg h4] at heq
          exact (RowCell.id.inj heq).symm

theorem searchWith_no_query_id (metric : List ℚ → List ℚ → Except Unit ℚ)
    (qv : Rec) (restCh : List SNode) (columns : List String)
    (limit : Int) (st : Store) (cols2 : List String)
    (rows : List (List RowCell))
    (h : searchWith metric qv restCh columns limit st = .ok (cols2, rows)) :
    ∀ row ∈ rows, ∀ c ∈ row, ∀ s, c = .id s → s ≠ qv.id := by
  unfold searchWith at h
  by_cases hm : hasMetricChild restCh
  · rw [if_pos hm] at h
    simp at h
  · rw [if_neg hm] at h
    rcases hs : flat.search
        (flat.build ⟨[], some metric⟩
          (((st.map Prod.fst).filterMap (hnsw.lookupA st)).map
            fun r => (r.id, r.values)))
        qv.values (if limit < 0 then 10 else limit) with e | results
    · simp only [hs] at h
      simp at h
    · simp only [hs] at h
      simp only [Except.ok.injEq, Prod.mk.injEq] at h
      obtain ⟨_, h2⟩ := h
      subst h2
      intro row hrow c hcell s he
      unfold buildRows at hrow
      obtain ⟨r, hr, hrc⟩ := List.mem_map.mp hrow
      have hrid : ¬r.id = qv.id := by
        have h3 := (List.mem_filter.mp hr).2
        simpa using h3
      rw [← hrc] at hcell
      have h4 := rowCells_id _ _ _ hcell _ he
      rw [h4]
      exact hrid

/-- C10.  When the `NEAREST TO` query vector is a vector or string
literal, `executeNearestSearch` builds the query vector under the
fixed internal id `"query"` and drops every search result whose id
equals the query vector's id — so a stored record whose id is exactly
`query` can never appear in the result rows of a literal-vector
similarity search, even when it is among the nearest neighbors. -/
theorem C10_literal_query_id_skipped
    (metric : List ℚ → List ℚ → Except Unit ℚ) (nearestNode qn : SNode)
    (restCh : List SNode) (columns : List String) (limit : Int)
    (st : Store) (cols2 : List String) (rows : List (List RowCell))
    (hch : nearestNode.children = qn :: restCh)
    (hqt : qn.type = .vector ∨ qn.type = .literal)
    (h : executeNearestSearch metric nearestNode columns limit st =
      .ok (cols2, rows)) :
    ∀ row ∈ rows, ∀ c ∈ row, ∀ s, c = .id s → s ≠ "query" := by
  unfold executeNearestSearch at h
  rw [hch] at h
  have hnid : ¬qn.type = .identifier := by
    rcases hqt with h1 | h1 <;> simp [h1]
  have h' : (if qn.type = .identifier then
      (match hnsw.lookupA st qn.value with
        | none => (.error () : Except Unit (List String × List (List RowCell)))
        | some v => searchWith metric v restCh columns limit st)
    else if qn.type = .vector ∨ qn.type = .literal then
      (match parsePartsSkipEmpty
          (splitGoStr (trimGo qn.value "[]") ',') with
        | none => .error ()
        | some vals =>
          searchWith metric ⟨"query", vals, []⟩ restCh columns limit st)
    else .error ()) = .ok (cols2, rows) := h
  rw [if_neg hnid, if_pos hqt] at h'
  rcases hp : parsePartsSkipEmpty
      (splitGoStr (trimGo qn.value "[]") ',') with _ | vals
  · simp [hp] at h'
  · simp only [hp] at h'
    intro row hrow c hc s he
    exact searchWith_no_query_id metric ⟨"query", vals, []⟩ restCh columns
      limit st cols2 rows h' row hrow c hc s he

/-- The `NEAREST TO [0.0]` AST node and two-record store of the C10
witness: the stored record named `query` is the single nearest
neighbor. -/
def c10Node : SNode := .mk .nearestTo "" [.mk .literal "[0.0]" []]

def c10Store : Store :=
  [("query", ⟨"query", [5], []⟩), ("a", ⟨"a", [7], []⟩)]

deriving instance DecidableEq for Except

/-- C10, witness: with the metric returning the stored head value, the
flat search over the witness store ranks the record `query` (distance
5) first, yet the produced rows hold only record `a`, and no id cell
of any row is `query`. -/
theorem C10_literal_query_id_skipped_witness :
    c10Node.children = [SNode.mk .literal "[0.0]" []] ∧
    ((SNode.mk .literal "[0.0]" []).type = .vector ∨
      (SNode.mk .literal "[0.0]" []).type = .literal) ∧
    flat.search
        (flat.build ⟨[], some fun _ b => .ok (b.headD 0)⟩
          [("query", [5]), ("a", [7])]) [0] 10 =
      .ok [⟨"query", [5], 5⟩, ⟨"a", [7], 7⟩] ∧
    executeNearestSearch (fun _ b => .ok (b.headD 0)) c10Node ["id"] (-1)
        c10Store =
      .ok (["id", "distance"], [[.id "a", .dist 7]]) ∧
    (∀ row ∈ [[RowCell.id "a", RowCell.dist 7]], ∀ c ∈ row, ∀ s,
      c = RowCell.id s → s ≠ "query") :=
  ⟨rfl, Or.inr rfl, rfl, by decide,
    C10_literal_query_id_skipped (fun _ b => .ok (b.headD 0)) c10Node
      (SNode.mk .literal "[0.0]" []) [] ["id"] (-1) c10Store
      ["id", "distance"] [[.id "a", .dist 7]] rfl (Or.inr rfl) (by decide)⟩

end sql

end VDB
